import Mathlib

/-!
Verification of the go-diff `dmp` package (diff/match/patch core).

Modelling conventions:
* A Go `string` is a byte sequence: `GoStr := List Nat` (each entry < 256).
  Go `len(s)`, byte slicing `s[i:j]`, and byte comparison are `List` operations.
* A Go `[]rune` is a `List Nat` of Unicode code points; the conversion
  `[]rune(s)` is `toRunes` below, implementing Go's `unicode/utf8` decoder
  exactly (invalid bytes decode to U+FFFD with width 1).
* Loops that terminate for non-obvious reasons take a fuel argument; fuel
  exhaustion is the distinguished result `RunResult.noFuel`, so an `ok`
  result is exactly what the Go program returns.
* A Go runtime panic (index out of range, failed type assertion) is the
  distinguished result `RunResult.crash`.
* Wall-clock deadline checks (`time.Now().After(deadline)`) are modelled by
  an oracle `Nat → Bool` giving the observed expiry at each check.
-/

set_option maxRecDepth 20000

namespace GoDiff

/-- A Go string, as its byte sequence. -/
abbrev GoStr := List Nat

/-- Result of running an embedded Go computation: a value, a runtime panic,
or fuel exhaustion of the embedding (never an actual Go outcome). -/
inductive RunResult (α : Type) where
  | ok (a : α)
  | crash
  | noFuel
  deriving DecidableEq, Repr

/-- Sequencing of embedded Go computations. -/
def RunResult.bind {α β : Type} : RunResult α → (α → RunResult β) → RunResult β
  | .ok a, f => f a
  | .crash, _ => .crash
  | .noFuel, _ => .noFuel

instance : Monad RunResult where
  pure := RunResult.ok
  bind := RunResult.bind

/-! ### Go UTF-8 decoding (`unicode/utf8`) -/

/-- The replacement character U+FFFD produced by Go for invalid UTF-8. -/
def runeError : Nat := 0xFFFD

/-- Whether `b` is a UTF-8 continuation byte in the accept range `[lo, hi]`. -/
def inRange (b lo hi : Nat) : Bool := lo ≤ b && b ≤ hi

/-- One step of Go's `utf8.DecodeRune`: returns the decoded code point, the
number of bytes consumed, and whether the encoding was valid.  Mirrors the
accept-range tables of `unicode/utf8` (rejecting overlong encodings,
surrogates, and values above U+10FFFF). -/
def decodeRune (s : GoStr) : Nat × Nat × Bool :=
  match s with
  | [] => (runeError, 0, false)
  | b0 :: rest =>
    if b0 < 0x80 then (b0, 1, true)
    else if b0 < 0xC2 then (runeError, 1, false)
    else if b0 ≤ 0xDF then
      match rest with
      | b1 :: _ =>
        if inRange b1 0x80 0xBF then
          (((b0 - 0xC0) * 0x40 + (b1 - 0x80)), 2, true)
        else (runeError, 1, false)
      | _ => (runeError, 1, false)
    else if b0 ≤ 0xEF then
      match rest with
      | b1 :: b2 :: _ =>
        let lo := if b0 = 0xE0 then 0xA0 else 0x80
        let hi := if b0 = 0xED then 0x9F else 0xBF
        if inRange b1 lo hi && inRange b2 0x80 0xBF then
          (((b0 - 0xE0) * 0x1000 + (b1 - 0x80) * 0x40 + (b2 - 0x80)), 3, true)
        else (runeError, 1, false)
      | _ => (runeError, 1, false)
    else if b0 ≤ 0xF4 then
      match rest with
      | b1 :: b2 :: b3 :: _ =>
        let lo := if b0 = 0xF0 then 0x90 else 0x80
        let hi := if b0 = 0xF4 then 0x8F else 0xBF
        if inRange b1 lo hi && inRange b2 0x80 0xBF && inRange b3 0x80 0xBF then
          (((b0 - 0xF0) * 0x40000 + (b1 - 0x80) * 0x1000 +
            (b2 - 0x80) * 0x40 + (b3 - 0x80)), 4, true)
        else (runeError, 1, false)
      | _ => (runeError, 1, false)
    else (runeError, 1, false)

/-- Fuel-indexed driver for `toRunes`; the fuel only serves to make the
recursion structural (each decode step consumes at least one byte, so
`s.length` is always enough fuel). -/
def toRunesF : Nat → GoStr → List Nat
  | _, [] => []
  | 0, _ :: _ => []
  | fuel + 1, b :: rest =>
    let d := decodeRune (b :: rest)
    d.1 :: toRunesF fuel (rest.drop (d.2.1 - 1))

/-- Go `[]rune(s)`: decode the whole byte string, one rune per step. -/
def toRunes (s : GoStr) : List Nat := toRunesF s.length s

theorem toRunesF_fuel : ∀ fuel fuel' s, s.length ≤ fuel → s.length ≤ fuel' →
    toRunesF fuel s = toRunesF fuel' s := by
  intro fuel
  induction fuel with
  | zero =>
    intro fuel' s h _
    cases s with
    | nil => cases fuel' <;> rfl
    | cons b rest => simp at h
  | succ fuel ih =>
    intro fuel' s h h'
    cases s with
    | nil => cases fuel' <;> rfl
    | cons b rest =>
      cases fuel' with
      | zero => simp at h'
      | succ fuel' =>
        simp only [toRunesF]
        have hlen : (rest.drop ((decodeRune (b :: rest)).2.1 - 1)).length ≤
            rest.length := by
          simp only [List.length_drop]; omega
        have h1 : (rest.drop ((decodeRune (b :: rest)).2.1 - 1)).length ≤ fuel := by
          simp only [List.length_cons] at h; omega
        have h2 : (rest.drop ((decodeRune (b :: rest)).2.1 - 1)).length ≤ fuel' := by
          simp only [List.length_cons] at h'; omega
        rw [ih _ _ h1 h2]

/-- Unfolding equation for `toRunes` on a non-empty string. -/
theorem toRunes_cons (b : Nat) (rest : GoStr) :
    toRunes (b :: rest) =
      (decodeRune (b :: rest)).1 ::
        toRunes (rest.drop ((decodeRune (b :: rest)).2.1 - 1)) := by
  show toRunesF (rest.length + 1) (b :: rest) = _
  simp only [toRunesF]
  exact congrArg _ (toRunesF_fuel rest.length _ _
    (by simp only [List.length_drop]; omega) (Nat.le_refl _))

@[simp] theorem toRunes_nil : toRunes [] = [] := rfl

/-- Fuel-indexed driver for `utf8ValidString`. -/
def utf8ValidF : Nat → GoStr → Bool
  | _, [] => true
  | 0, _ :: _ => false
  | fuel + 1, b :: rest =>
    let d := decodeRune (b :: rest)
    d.2.2 && utf8ValidF fuel (rest.drop (d.2.1 - 1))

/-- Go `utf8.ValidString`: every decode step is a valid encoding. -/
def utf8ValidString (s : GoStr) : Bool := utf8ValidF s.length s

/-- Go's UTF-8 encoder for one code point (`utf8.AppendRune`); surrogates and
out-of-range values encode U+FFFD. -/
def encodeRune (r : Nat) : GoStr :=
  if r < 0x80 then [r]
  else if r < 0x800 then [0xC0 + r / 0x40, 0x80 + r % 0x40]
  else if 0xD800 ≤ r && r ≤ 0xDFFF then [0xEF, 0xBF, 0xBD]
  else if r < 0x10000 then
    [0xE0 + r / 0x1000, 0x80 + r / 0x40 % 0x40, 0x80 + r % 0x40]
  else if r ≤ 0x10FFFF then
    [0xF0 + r / 0x40000, 0x80 + r / 0x1000 % 0x40,
     0x80 + r / 0x40 % 0x40, 0x80 + r % 0x40]
  else [0xEF, 0xBF, 0xBD]

/-- Go `string(rs)` for a rune slice: concatenate the encodings. -/
def fromRunes (rs : List Nat) : GoStr := rs.flatMap encodeRune

/-! ### The diff data model (`diff.go`) -/

/-- The three edit operations. -/
inductive Operation where
  | DiffDelete
  | DiffInsert
  | DiffEqual
  deriving DecidableEq, Repr

export Operation (DiffDelete DiffInsert DiffEqual)

/-- One diff operation: a kind and a payload string.  (Go field names are
`Type` and `Text`; `Type` is reserved in Lean, so the fields are lowercase.) -/
structure Diff where
  op : Operation
  text : GoStr
  deriving DecidableEq, Repr

/-- `diffEq` from `diff.go`. -/
def diffEq (s : GoStr) : Diff := ⟨DiffEqual, s⟩

/-- `diffPrepend` from `diff.go`. -/
def diffPrepend (head : Diff) (diffs : List Diff) : List Diff := head :: diffs

/-- `diffAppend` from `diff.go`. -/
def diffAppend (diffs : List Diff) (tail : Diff) : List Diff := diffs ++ [tail]

/-- `DiffText1` from `diff_text.go`: concatenation of the payloads of all
operations that are not insertions. -/
def DiffText1 : List Diff → GoStr
  | [] => []
  | d :: ds => (if d.op ≠ DiffInsert then d.text else []) ++ DiffText1 ds

/-- `DiffText2` from `diff_text.go`: concatenation of the payloads of all
operations that are not deletions. -/
def DiffText2 : List Diff → GoStr
  | [] => []
  | d :: ds => (if d.op ≠ DiffDelete then d.text else []) ++ DiffText2 ds

/-- `splice` from `splice.go`. -/
def splice (slice : List Diff) (index amount : Nat) (elements : List Diff) :
    List Diff :=
  slice.take index ++ elements ++ slice.drop (index + amount)

/-! ### Codepoint utilities (`levenshtein.go`, bottom half) -/

/-- `commonPrefixLength` on rune slices. -/
def commonPrefixLength : List Nat → List Nat → Nat
  | a :: as, b :: bs => if a = b then commonPrefixLength as bs + 1 else 0
  | _, _ => 0

/-- `commonSuffixLength` on rune slices. -/
def commonSuffixLength (t1 t2 : List Nat) : Nat :=
  commonPrefixLength t1.reverse t2.reverse

/-- `DiffCommonPrefix`: rune-count of the common prefix of two byte strings.
(Renamed from the Go `DiffCommonPrefix` with a `Len` suffix.) -/
def DiffCommonPrefixLen (s1 s2 : GoStr) : Nat :=
  commonPrefixLength (toRunes s1) (toRunes s2)

/-- `DiffCommonSuffix`: rune-count of the common suffix of two byte strings. -/
def DiffCommonSuffixLen (s1 s2 : GoStr) : Nat :=
  commonSuffixLength (toRunes s1) (toRunes s2)

/-! ### `DiffLevenshtein` (`levenshtein.go`) -/

/-- The accumulator loop of `DiffLevenshtein`: `ret` is the distance so far,
`insertions`/`deletions` the byte counts of the current Insert/Delete run
(Go `len` on a string counts bytes). -/
def levLoop : List Diff → Nat → Nat → Nat → Nat
  | [], ret, insertions, deletions => ret + max insertions deletions
  | d :: ds, ret, insertions, deletions =>
    match d.op with
    | DiffInsert => levLoop ds ret (insertions + d.text.length) deletions
    | DiffDelete => levLoop ds ret insertions (deletions + d.text.length)
    | DiffEqual => levLoop ds (ret + max insertions deletions) 0 0

/-- `DiffLevenshtein` from `levenshtein.go`. -/
def DiffLevenshtein (diffs : List Diff) : Nat := levLoop diffs 0 0 0

/-- Specification-side run decomposition: the Insert/Delete runs of a script,
delimited by Equal operations (including the runs before the first and after
the last Equal); each run is summarised as (inserted length, deleted length),
lengths taken by the measure `len`. -/
def levSegs (len : GoStr → Nat) : List Diff → List (Nat × Nat)
  | [] => [(0, 0)]
  | d :: ds =>
    match d.op, levSegs len ds with
    | DiffEqual, rest => (0, 0) :: rest
    | DiffInsert, r :: rs => (r.1 + len d.text, r.2) :: rs
    | DiffDelete, r :: rs => (r.1, r.2 + len d.text) :: rs
    | _, [] => []

/-- Specification-side Levenshtein value: the sum over runs of
max(insertions, deletions), measured by `len`. -/
def levSpec (len : GoStr → Nat) (diffs : List Diff) : Nat :=
  ((levSegs len diffs).map (fun r => max r.1 r.2)).sum

theorem levSegs_ne_nil (len : GoStr → Nat) (ds : List Diff) :
    levSegs len ds ≠ [] := by
  induction ds with
  | nil => simp [levSegs]
  | cons d ds ih =>
    cases h : levSegs len ds with
    | nil => exact absurd h ih
    | cons r rs => cases hop : d.op <;> simp [levSegs, h, hop]

theorem levLoop_eq_spec (ds : List Diff) :
    ∀ ret ins del r rs, levSegs List.length ds = r :: rs →
      levLoop ds ret ins del =
        ret + (max (ins + r.1) (del + r.2) +
          (rs.map (fun x => max x.1 x.2)).sum) := by
  induction ds with
  | nil =>
    intro ret ins del r rs hseg
    simp only [levSegs, List.cons.injEq] at hseg
    obtain ⟨hr, hrs⟩ := hseg
    subst hr; subst hrs
    simp [levLoop]
  | cons d ds ih =>
    intro ret ins del r rs hseg
    rcases h' : levSegs List.length ds with _ | ⟨r', rs'⟩
    · exact absurd h' (levSegs_ne_nil _ _)
    · cases hop : d.op
      all_goals
        simp only [levSegs, hop, h', List.cons.injEq] at hseg
      · obtain ⟨hr, hrs⟩ := hseg
        subst hr; subst hrs
        simp only [levLoop, hop, ih ret ins (del + d.text.length) r' rs' h']
        have hx : del + d.text.length + r'.2 = del + (r'.2 + d.text.length) := by
          omega
        rw [hx]
      · obtain ⟨hr, hrs⟩ := hseg
        subst hr; subst hrs
        simp only [levLoop, hop, ih ret (ins + d.text.length) del r' rs' h']
        have hx : ins + d.text.length + r'.1 = ins + (r'.1 + d.text.length) := by
          omega
        rw [hx]
      · obtain ⟨hr, hrs⟩ := hseg
        subst hr; subst hrs
        simp only [levLoop, hop,
          ih (ret + max ins del) 0 0 r' rs' h', List.map_cons, List.sum_cons,
          Nat.zero_add, Nat.add_zero]
        omega

/-- C5 (amended): `DiffLevenshtein` equals the sum, over the Insert/Delete
runs delimited by Equal operations, of max(inserted bytes, deleted bytes) —
the lengths are byte counts. -/
theorem DiffLevenshtein_eq_sum_runs_bytes (diffs : List Diff) :
    DiffLevenshtein diffs = levSpec List.length diffs := by
  rcases hseg : levSegs List.length diffs with _ | ⟨r, rs⟩
  · exact absurd hseg (levSegs_ne_nil _ _)
  · have h := levLoop_eq_spec diffs 0 0 0 r rs hseg
    simp only [DiffLevenshtein, h, levSpec, hseg, List.map_cons, List.sum_cons,
      Nat.zero_add]

/-- C5 (counterexample): on the single-operation script `[Insert "é"]` the
code returns 2 (bytes of the UTF-8 encoding of é), while the claimed
codepoint-measured sum of run maxima is 1. -/
theorem DiffLevenshtein_counts_bytes_not_runes :
    DiffLevenshtein [⟨DiffInsert, [0xC3, 0xA9]⟩] = 2 ∧
      levSpec (fun t => (toRunes t).length) [⟨DiffInsert, [0xC3, 0xA9]⟩] = 1 ∧
      (2 : Nat) ≠ 1 := by
  refine ⟨rfl, ?_, by decide⟩
  decide

/-! ### `DiffFromDelta` (`diff_from_delta.go`) -/

/-- Go `strings.Split(s, sep)` for a one-byte separator. -/
def goSplit (sep : Nat) : GoStr → List GoStr
  | [] => [[]]
  | b :: rest =>
    if b = sep then [] :: goSplit sep rest
    else
      match goSplit sep rest with
      | t :: ts => (b :: t) :: ts
      | [] => [[b]]

/-- Value of an ASCII hex digit, accepting both cases (`net/url`'s `unhex`). -/
def hexVal (d : Nat) : Option Nat :=
  if 48 ≤ d && d ≤ 57 then some (d - 48)
  else if 65 ≤ d && d ≤ 70 then some (d - 55)
  else if 97 ≤ d && d ≤ 102 then some (d - 87)
  else none

/-- Go `url.QueryUnescape`: decode `%HH` escapes (either case), map `+` to a
space, fail on a malformed escape. -/
def queryUnescape : GoStr → Option GoStr
  | [] => some []
  | 37 :: h1 :: h2 :: rest =>
    match hexVal h1, hexVal h2 with
    | some v1, some v2 => (queryUnescape rest).map (fun t => (v1 * 16 + v2) :: t)
    | _, _ => none
  | 37 :: _ :: [] => none
  | 37 :: [] => none
  | 43 :: rest => (queryUnescape rest).map (fun t => 32 :: t)
  | b :: rest => (queryUnescape rest).map (fun t => b :: t)

/-- Go `strconv.ParseInt(s, 10, 0)`: optional sign, decimal digits, 64-bit
range check. -/
def goParseInt (s : GoStr) : Option Int :=
  let (neg, digits) :=
    match s with
    | 45 :: rest => (true, rest)
    | 43 :: rest => (false, rest)
    | other => (false, other)
  if digits.isEmpty then none
  else if digits.all (fun d => 48 ≤ d && d ≤ 57) then
    let v : Nat := digits.foldl (fun acc d => acc * 10 + (d - 48)) 0
    let i : Int := if neg then -(v : Int) else (v : Int)
    if -(2 ^ 63) ≤ i && i ≤ 2 ^ 63 - 1 then some i else none
  else none

/-- The `strings.Replace(param, "+", "%2b", -1)` step of `DiffFromDelta`. -/
def replacePlus (param : GoStr) : GoStr :=
  param.flatMap (fun b => if b = 43 then [37, 50, 98] else [b])

/-- The error outcomes of `DiffFromDelta`, one per `return` site. -/
inductive DeltaError where
  | escapeErr
  | invalidUtf8
  | parseErr
  | negativeCount
  | indexOutOfBound
  | invalidOp
  | lengthMismatch
  deriving DecidableEq, Repr

/-- Two's-complement wraparound of a 64-bit Go `int`: Go defines signed
overflow as wrapping, so `pointer + int(n)` is this of the exact sum. -/
def wrap64 (x : Int) : Int := (x + 2 ^ 63) % 2 ^ 64 - 2 ^ 63

/-- The token loop of `DiffFromDelta`, carrying the accumulated diffs and the
codepoint cursor into `s`.  The cursor is a Go `int`: `pointer + int(n)`
wraps at 2^63, and the slice expression `runes[pointer : pointer+int(n)]`
panics (`.crash`) unless `0 ≤ pointer ≤ pointer+int(n) ≤ len(runes)`; the
`Index out of bound` error is returned only when the (possibly wrapped) sum
exceeds `len(runes)`. -/
def deltaLoop (s : GoStr) : List GoStr → List Diff → Int →
    RunResult (Except DeltaError (List Diff))
  | [], diffs, pointer =>
    if pointer ≠ ((toRunes s).length : Int) then .ok (.error .lengthMismatch)
    else .ok (.ok diffs)
  | token :: toks, diffs, pointer =>
    match token with
    | [] => deltaLoop s toks diffs pointer
    | op :: param =>
      if op = 43 then
        match queryUnescape (replacePlus param) with
        | none => .ok (.error .escapeErr)
        | some p =>
          if utf8ValidString p then
            deltaLoop s toks (diffs ++ [⟨DiffInsert, p⟩]) pointer
          else .ok (.error .invalidUtf8)
      else if op = 61 || op = 45 then
        match goParseInt param with
        | none => .ok (.error .parseErr)
        | some n =>
          if n < 0 then .ok (.error .negativeCount)
          else
            let runes := toRunes s
            let high := wrap64 (pointer + n)
            if high > (runes.length : Int) then .ok (.error .indexOutOfBound)
            else if ¬(0 ≤ pointer ∧ pointer ≤ high) then .crash
            else
              let text := fromRunes ((runes.drop pointer.toNat).take
                (high - pointer).toNat)
              if op = 61 then
                deltaLoop s toks (diffs ++ [⟨DiffEqual, text⟩]) high
              else
                deltaLoop s toks (diffs ++ [⟨DiffDelete, text⟩]) high
      else .ok (.error .invalidOp)

/-- `DiffFromDelta` from `diff_from_delta.go`; `.ok (.ok ds)` and
`.ok (.error e)` are the function's two Go return shapes, `.crash` a runtime
panic. -/
def DiffFromDelta (s delta : GoStr) : RunResult (Except DeltaError (List Diff)) :=
  deltaLoop s (goSplit 9 delta) [] 0

/-- The delta `"=1\t=9223372036854775807"` as bytes. -/
def c4Delta : GoStr :=
  [0x3D, 0x31, 0x09, 0x3D] ++
  [57, 50, 50, 51, 51, 55, 50, 48, 51, 54, 56, 53, 52, 55, 55, 53, 56, 48, 55]

/-- C4 (code bug): `DiffFromDelta` does not return an error on every cursor
overrun — it can panic instead.  On source `"a"` and delta
`"=1\t=9223372036854775807"`, the second count parses to `2^63 - 1`,
`pointer + int(n) = 1 + (2^63 - 1)` wraps to `-2^63`, which passes the
`> len(runes)` overrun test, and the slice `runes[1 : -2^63]` is a
slice-bounds runtime panic.  A genuine small overrun (`"=2"` on `"a"`)
does return the index-out-of-bound error, and the panic is a third outcome
distinct from every returned error. -/
theorem DiffFromDelta_panics_on_wrapping_count :
    DiffFromDelta [0x61] c4Delta = .crash ∧
    DiffFromDelta [0x61] [0x3D, 0x32] = .ok (.error .indexOutOfBound) ∧
    ∀ r : Except DeltaError (List Diff),
      (RunResult.crash : RunResult (Except DeltaError (List Diff))) ≠ .ok r := by
  refine ⟨rfl, rfl, ?_⟩
  intro r h
  cases h

/-! ### `MatchMain` (`dmp.go`) -/

/-- `MatchMain` from `dmp.go`.  The Bitap fallback `dmp.MatchBitap` lives in
a source file that is not part of the provided sources, so it is abstracted
as the parameter `matchBitap`; everything else mirrors the Go code, whose
`len` and slicing are byte operations.  (Go clamps via `math.Max`/`math.Min`
on `float64`; that is exact for these integer values.) -/
def goClamp (loc : Int) (n : Nat) : Int := max 0 (min loc (n : Int))

def MatchMain (matchBitap : GoStr → GoStr → Int → Int)
    (s pattern : GoStr) (loc : Int) : Int :=
  if s = pattern then 0
  else if s.length = 0 then -1
  else if (goClamp loc s.length).toNat + pattern.length ≤ s.length ∧
      (s.drop (goClamp loc s.length).toNat).take pattern.length = pattern then
    goClamp loc s.length
  else matchBitap s pattern (goClamp loc s.length)

/-- C6's claimed behaviour under the spec's codepoint discipline: clamp
`loc` into `[0, |text|]` codepoints, return 0 when the texts are equal, −1
when the text is empty, the clamped loc when an exact occurrence of the
pattern starts at that codepoint position, else the Bitap result. -/
def matchMainClaim (matchBitap : GoStr → GoStr → Int → Int)
    (s pattern : GoStr) (loc : Int) : Int :=
  if s = pattern then 0
  else if (toRunes s).length = 0 then -1
  else if (goClamp loc (toRunes s).length).toNat + (toRunes pattern).length ≤
        (toRunes s).length ∧
      ((toRunes s).drop (goClamp loc (toRunes s).length).toNat).take
        (toRunes pattern).length = toRunes pattern then
    goClamp loc (toRunes s).length
  else matchBitap s pattern (goClamp loc (toRunes s).length)

/-- C6 (amended): `MatchMain`'s dispatch in byte units — clamp `loc` into
`[0, byte length]`, 0 on equal texts, −1 on empty text, the clamped loc when
the pattern occurs at that byte position, else the Bitap result. -/
def matchMainAmended (matchBitap : GoStr → GoStr → Int → Int)
    (s pattern : GoStr) (loc : Int) : Int :=
  if s = pattern then 0
  else if s = [] then -1
  else if pattern.isPrefixOf (s.drop (goClamp loc s.length).toNat) then
    goClamp loc s.length
  else matchBitap s pattern (goClamp loc s.length)

/-- C6 (counterexample): on text `"é"` (two bytes, one codepoint), empty
pattern and `loc = 5`, the code clamps to the byte length and returns 2,
while the claim's codepoint reading requires 1. -/
theorem MatchMain_clamps_bytes_not_codepoints :
    MatchMain (fun _ _ _ => -1) [0xC3, 0xA9] [] 5 = 2 ∧
      matchMainClaim (fun _ _ _ => -1) [0xC3, 0xA9] [] 5 = 1 ∧
      (2 : Int) ≠ 1 := by
  refine ⟨by decide, by decide, by decide⟩

/-- C6 (amended, theorem): for every Bitap fallback and all inputs,
`MatchMain` implements the claimed dispatch with byte-measured clamping and
occurrence test. -/
theorem MatchMain_eq_byte_semantics (matchBitap : GoStr → GoStr → Int → Int)
    (s pattern : GoStr) (loc : Int) :
    MatchMain matchBitap s pattern loc =
      matchMainAmended matchBitap s pattern loc := by
  unfold MatchMain matchMainAmended
  by_cases h1 : s = pattern
  · simp [h1]
  · have hcond : (goClamp loc s.length).toNat + pattern.length ≤ s.length ∧
        (s.drop (goClamp loc s.length).toNat).take pattern.length = pattern ↔
        pattern.isPrefixOf (s.drop (goClamp loc s.length).toNat) := by
      set lo : Nat := (goClamp loc s.length).toNat with hlo
      have hlos : lo ≤ s.length := by
        rw [hlo]
        unfold goClamp
        omega
      rw [List.isPrefixOf_iff_prefix, List.prefix_iff_eq_take]
      constructor
      · rintro ⟨_, h⟩; exact h.symm
      · intro h
        refine ⟨?_, h.symm⟩
        have hl : pattern.length ≤ (s.drop lo).length := by
          conv_lhs => rw [h]
          simp [List.length_take]
        simp only [List.length_drop] at hl
        omega
    have hlen : (s.length = 0) ↔ (s = []) := by
      simp [List.length_eq_zero]
    rw [if_neg h1, if_neg h1]
    by_cases h2 : s = []
    · rw [if_pos (hlen.mpr h2), if_pos h2]
    · rw [if_neg (fun hh => h2 (hlen.mp hh)), if_neg h2]
      by_cases h3 : pattern.isPrefixOf (s.drop (goClamp loc s.length).toNat)
      · rw [if_pos (hcond.mpr h3), if_pos h3]
      · rw [if_neg (fun hh => h3 (hcond.mp hh)), if_neg h3]

/-! ### `DiffCleanupMerge` (`cleanup_merge.go`) -/

/-- Indexing with the zero `Diff` as default.  Every access in the embedded
loops is in bounds by the loop structure, so the default is never produced
on the paths the theorems talk about. -/
def dget (ds : List Diff) (i : Nat) : Diff := ds.getD i ⟨DiffEqual, []⟩

/-- First pass of `DiffCleanupMerge`: walk the script accumulating runs of
Deletes and Inserts; on an Equal, factor common prefixes/suffixes of the run
(`DiffCommonPrefix` counts runes, the slicing is by bytes, exactly as in the
Go code) and splice the merged records back.  The fuel only bounds the
iteration count; `2·length + 8` always suffices. -/
def mergeP1 : Nat → List Diff → Nat → Nat → Nat → GoStr → GoStr →
    RunResult (List Diff)
  | 0, _, _, _, _, _, _ => .noFuel
  | fuel + 1, ds, i, ndel, nins, delStr, insStr =>
    if i ≥ ds.length then .ok ds
    else
      match (dget ds i).op with
      | DiffInsert =>
        mergeP1 fuel ds (i + 1) ndel (nins + 1) delStr (insStr ++ (dget ds i).text)
      | DiffDelete =>
        mergeP1 fuel ds (i + 1) (ndel + 1) nins (delStr ++ (dget ds i).text) insStr
      | DiffEqual =>
        if ndel + nins > 1 then
          let step1 :=
            if ndel ≠ 0 ∧ nins ≠ 0 then
              let cl := DiffCommonPrefixLen insStr delStr
              let s1 :=
                if cl ≠ 0 then
                  let x := i - ndel - nins
                  if x > 0 ∧ (dget ds (x - 1)).op = DiffEqual then
                    (ds.set (x - 1)
                        ⟨DiffEqual, (dget ds (x - 1)).text ++ insStr.take cl⟩,
                      i, insStr.drop cl, delStr.drop cl)
                  else
                    ((⟨DiffEqual, insStr.take cl⟩ : Diff) :: ds, i + 1,
                      insStr.drop cl, delStr.drop cl)
                else (ds, i, insStr, delStr)
              let (ds1, i1, ins1, del1) := s1
              let cl2 := DiffCommonSuffixLen ins1 del1
              if cl2 ≠ 0 then
                (ds1.set i1
                    ⟨(dget ds1 i1).op,
                      ins1.drop (ins1.length - cl2) ++ (dget ds1 i1).text⟩,
                  i1, ins1.take (ins1.length - cl2), del1.take (del1.length - cl2))
              else (ds1, i1, ins1, del1)
            else (ds, i, insStr, delStr)
          let (ds1, i1, ins1, del1) := step1
          let ds2 :=
            if ndel = 0 then
              splice ds1 (i1 - nins) (ndel + nins) [⟨DiffInsert, ins1⟩]
            else if nins = 0 then
              splice ds1 (i1 - ndel) (ndel + nins) [⟨DiffDelete, del1⟩]
            else
              splice ds1 (i1 - ndel - nins) (ndel + nins)
                [⟨DiffDelete, del1⟩, ⟨DiffInsert, ins1⟩]
          let i2 := i1 - ndel - nins + 1 + (if ndel ≠ 0 then 1 else 0) +
            (if nins ≠ 0 then 1 else 0)
          mergeP1 fuel ds2 i2 0 0 [] []
        else if i ≠ 0 ∧ (dget ds (i - 1)).op = DiffEqual then
          let ds1 := ds.set (i - 1)
            ⟨DiffEqual, (dget ds (i - 1)).text ++ (dget ds i).text⟩
          let ds2 := ds1.take i ++ ds1.drop (i + 1)
          mergeP1 fuel ds2 i 0 0 [] []
        else
          mergeP1 fuel ds (i + 1) 0 0 [] []

/-- Second pass of `DiffCleanupMerge`: shift single edits surrounded by
equalities sideways when they share an affix with a neighbouring equality.
Returns the script and the `changes` flag. -/
def mergeP2 : Nat → List Diff → Nat → Bool → RunResult (List Diff × Bool)
  | 0, _, _, _ => .noFuel
  | fuel + 1, ds, i, changes =>
    if i ≥ ds.length - 1 then .ok (ds, changes)
    else
      if (dget ds (i - 1)).op = DiffEqual ∧ (dget ds (i + 1)).op = DiffEqual then
        if (dget ds (i - 1)).text.isSuffixOf (dget ds i).text then
          let eq1 := (dget ds (i - 1)).text
          let edit := (dget ds i).text
          let ds1 := ds.set i ⟨(dget ds i).op, eq1 ++ edit.take (edit.length - eq1.length)⟩
          let ds2 := ds1.set (i + 1) ⟨(dget ds1 (i + 1)).op, eq1 ++ (dget ds1 (i + 1)).text⟩
          let ds3 := splice ds2 (i - 1) 1 []
          mergeP2 fuel ds3 (i + 1) true
        else if (dget ds (i + 1)).text.isPrefixOf (dget ds i).text then
          let eq2 := (dget ds (i + 1)).text
          let ds1 := ds.set (i - 1) ⟨(dget ds (i - 1)).op, (dget ds (i - 1)).text ++ eq2⟩
          let ds2 := ds1.set i ⟨(dget ds1 i).op, (dget ds1 i).text.drop eq2.length ++ eq2⟩
          let ds3 := splice ds2 (i + 1) 1 []
          mergeP2 fuel ds3 (i + 1) true
        else mergeP2 fuel ds (i + 1) changes
      else mergeP2 fuel ds (i + 1) changes

/-- `DiffCleanupMerge` from `cleanup_merge.go`: append a dummy Equal, run the
first pass, strip an empty trailing entry, run the shift pass, and re-run on
change.  The outer fuel bounds only the number of `changes` re-runs. -/
def DiffCleanupMerge : Nat → List Diff → RunResult (List Diff)
  | 0, _ => .noFuel
  | fuel + 1, ds =>
    let ds0 := ds ++ [⟨DiffEqual, []⟩]
    (mergeP1 (2 * ds0.length + 8) ds0 0 0 0 [] []).bind fun ds1 =>
    let ds1 := if (dget ds1 (ds1.length - 1)).text.length = 0 then ds1.dropLast else ds1
    (mergeP2 (ds1.length + 2) ds1 1 false).bind fun out =>
    if out.2 then DiffCleanupMerge fuel out.1 else .ok out.1

/-- An `ok` result of `DiffCleanupMerge` is stable under extra fuel, so a
concrete `ok` evaluation is the Go function's value. -/
theorem DiffCleanupMerge_fuel_mono :
    ∀ fuel fuel' ds r, fuel ≤ fuel' → DiffCleanupMerge fuel ds = .ok r →
      DiffCleanupMerge fuel' ds = .ok r := by
  intro fuel
  induction fuel with
  | zero => intro fuel' ds r _ h; cases h
  | succ fuel ih =>
    intro fuel' ds r hle h
    cases fuel' with
    | zero => omega
    | succ fuel' =>
      simp only [DiffCleanupMerge] at h ⊢
      cases hm : mergeP1 (2 * (ds ++ [(⟨DiffEqual, []⟩ : Diff)]).length + 8)
          (ds ++ [(⟨DiffEqual, []⟩ : Diff)]) 0 0 0 [] [] with
      | ok ds1 =>
        rw [hm] at h
        simp only [RunResult.bind] at h ⊢
        cases hm2 : mergeP2
            ((if (dget ds1 (ds1.length - 1)).text.length = 0 then ds1.dropLast
              else ds1).length + 2)
            (if (dget ds1 (ds1.length - 1)).text.length = 0 then ds1.dropLast
              else ds1) 1 false with
        | ok out =>
          rw [hm2] at h
          simp only [RunResult.bind] at h ⊢
          by_cases hc : out.2
          · rw [if_pos hc] at h ⊢
            exact ih fuel' out.1 r (by omega) h
          · rw [if_neg hc] at h ⊢
            exact h
        | crash => rw [hm2] at h; simp only [RunResult.bind] at h; cases h
        | noFuel => rw [hm2] at h; simp only [RunResult.bind] at h; cases h
      | crash => rw [hm] at h; simp only [RunResult.bind] at h; cases h
      | noFuel => rw [hm] at h; simp only [RunResult.bind] at h; cases h

/-- C8 (code bug): `DiffCleanupMerge` is not idempotent.  On
`[Delete "éb", Insert "éa"]` the first pass factors the rune-counted common
prefix (1 rune) as one byte, splitting the two-byte é; re-running the
cleanup factors a further byte, giving a different script. -/
theorem DiffCleanupMerge_not_idempotent :
    DiffCleanupMerge 50 [⟨DiffDelete, [0xC3, 0xA9, 0x62]⟩,
        ⟨DiffInsert, [0xC3, 0xA9, 0x61]⟩] =
      .ok [⟨DiffEqual, [0xC3]⟩, ⟨DiffDelete, [0xA9, 0x62]⟩,
        ⟨DiffInsert, [0xA9, 0x61]⟩] ∧
    DiffCleanupMerge 50 [⟨DiffEqual, [0xC3]⟩, ⟨DiffDelete, [0xA9, 0x62]⟩,
        ⟨DiffInsert, [0xA9, 0x61]⟩] =
      .ok [⟨DiffEqual, [0xC3, 0xA9]⟩, ⟨DiffDelete, [0x62]⟩,
        ⟨DiffInsert, [0x61]⟩] ∧
    ([⟨DiffEqual, [0xC3, 0xA9]⟩, ⟨DiffDelete, [0x62]⟩,
        ⟨DiffInsert, [0x61]⟩] : List Diff) ≠
      [⟨DiffEqual, [0xC3]⟩, ⟨DiffDelete, [0xA9, 0x62]⟩,
        ⟨DiffInsert, [0xA9, 0x61]⟩] := by
  exact ⟨by decide, by decide, by decide⟩

/-- C9 (code bug): on `[Delete "ab", Insert "ab"]` (no empty payloads in the
input) `DiffCleanupMerge` emits `Delete ""` and `Insert ""`: prefix
factoring consumes both run strings entirely and the merged records are
spliced back without the upstream non-emptiness guards. -/
theorem DiffCleanupMerge_emits_empty_payload_ops :
    DiffCleanupMerge 50 [⟨DiffDelete, [0x61, 0x62]⟩, ⟨DiffInsert, [0x61, 0x62]⟩] =
      .ok [⟨DiffEqual, [0x61, 0x62]⟩, ⟨DiffDelete, []⟩, ⟨DiffInsert, []⟩] ∧
    ([⟨DiffEqual, [0x61, 0x62]⟩, ⟨DiffDelete, []⟩, ⟨DiffInsert, []⟩] : List Diff).any
      (fun d => d.text.isEmpty) = true := by
  exact ⟨by decide, by decide⟩

/-! ### `DiffCleanupSemanticLossless` (`cleanup_semantic.go`) -/

/-- Go `utf8.RuneStart`: not a continuation byte. -/
def isRuneStart (b : Nat) : Bool := !(0x80 ≤ b && b ≤ 0xBF)

/-- The backward scan of `utf8.DecodeLastRuneInString` looking for a rune
start byte; at most three steps, so fuel 5 is always enough. -/
def scanBack : Nat → Int → Int → GoStr → Int
  | 0, start, _, _ => start
  | f + 1, start, lim, s =>
    if start < lim then start
    else if isRuneStart (s.getD start.toNat 0) then start
    else scanBack f (start - 1) lim s

/-- Go `utf8.DecodeLastRuneInString`: decode the rune ending the string;
`(U+FFFD, 1)` when the tail is not a valid encoding. -/
def decodeLastRune (s : GoStr) : Nat × Nat :=
  if s.length = 0 then (runeError, 0)
  else
    let last := s.getD (s.length - 1) 0
    if last < 0x80 then (last, 1)
    else
      let lim : Int := (s.length : Int) - 4
      let lim := if lim < 0 then 0 else lim
      let start := scanBack 5 ((s.length : Int) - 2) lim s
      let start := if start < 0 then (0 : Int) else start
      let d := decodeRune (s.drop start.toNat)
      if start.toNat + d.2.1 ≠ s.length then (runeError, 1) else (d.1, d.2.1)

/-- `[^a-zA-Z0-9]` on a single rune. -/
def nonAlphaNumeric (r : Nat) : Bool :=
  !((48 ≤ r && r ≤ 57) || (65 ≤ r && r ≤ 90) || (97 ≤ r && r ≤ 122))

/-- Go regexp `\s` (RE2 Perl class: tab, newline, form feed, carriage
return, space) on a single rune. -/
def isWhitespaceRune (r : Nat) : Bool :=
  r = 9 || r = 10 || r = 12 || r = 13 || r = 32

/-- Go regexp `[\r\n]` on a single rune. -/
def isLinebreakRune (r : Nat) : Bool := r = 10 || r = 13

/-- Go regexp `\n\r?\n$`. -/
def blanklineEnd (s : GoStr) : Bool :=
  (decide (2 ≤ s.length) && decide (s.drop (s.length - 2) = [10, 10])) ||
  (decide (3 ≤ s.length) && decide (s.drop (s.length - 3) = [10, 13, 10]))

/-- The boundary score closure of `DiffCleanupSemanticLossless`
(0 worst … 6 best). -/
def diffCleanupSemanticScore (one two : GoStr) : Nat :=
  if one.length = 0 || two.length = 0 then 6
  else
    let rune1 := (decodeLastRune one).1
    let rune2 := (decodeRune two).1
    let nonAlpha1 := nonAlphaNumeric rune1
    let nonAlpha2 := nonAlphaNumeric rune2
    let ws1 := nonAlpha1 && isWhitespaceRune rune1
    let ws2 := nonAlpha2 && isWhitespaceRune rune2
    let lb1 := ws1 && isLinebreakRune rune1
    let lb2 := ws2 && isLinebreakRune rune2
    let blank1 := lb1 && blanklineEnd one
    let blank2 := lb2 && blanklineEnd two
    if blank1 || blank2 then 5
    else if lb1 || lb2 then 4
    else if nonAlpha1 && !ws1 && ws2 then 3
    else if ws1 || ws2 then 2
    else if nonAlpha1 || nonAlpha2 then 1
    else 0

/-- The character-stepping loop of `DiffCleanupSemanticLossless`: slide the
edit right one (byte-decoded) rune at a time while the edit's head equals
`equality2`'s head, keeping the best-scoring split (ties prefer the later
position).  Fuel `|equality2| + 1` always suffices since `equality2` shrinks
every step. -/
def losslessSteps : Nat → GoStr → GoStr → GoStr → (GoStr × GoStr × GoStr) →
    Nat → GoStr × GoStr × GoStr
  | 0, _, _, _, best, _ => best
  | f + 1, eq1, edit, eq2, best, bestScore =>
    if edit.length = 0 || eq2.length = 0 then best
    else
      let sz := (decodeRune edit).2.1
      if eq2.length < sz || decide (edit.take sz ≠ eq2.take sz) then best
      else
        let eq1' := eq1 ++ edit.take sz
        let edit' := edit.drop sz ++ eq2.take sz
        let eq2' := eq2.drop sz
        let score := diffCleanupSemanticScore eq1' edit' +
          diffCleanupSemanticScore edit' eq2'
        if score ≥ bestScore then
          losslessSteps f eq1' edit' eq2' (eq1', edit', eq2') score
        else losslessSteps f eq1' edit' eq2' best bestScore

/-- The pointer loop of `DiffCleanupSemanticLossless`.  Fuel exhaustion
returns the current script; `length + 2` fuel always suffices because
`length − pointer` strictly decreases. -/
def losslessLoop : Nat → List Diff → Nat → List Diff
  | 0, ds, _ => ds
  | f + 1, ds, pointer =>
    if pointer ≥ ds.length - 1 then ds
    else
      if (dget ds (pointer - 1)).op = DiffEqual ∧
          (dget ds (pointer + 1)).op = DiffEqual then
        let equality1 := (dget ds (pointer - 1)).text
        let edit := (dget ds pointer).text
        let equality2 := (dget ds (pointer + 1)).text
        let commonOffset := DiffCommonSuffixLen equality1 edit
        let shifted :=
          if commonOffset > 0 then
            let commonString := edit.drop (edit.length - commonOffset)
            (equality1.take (equality1.length - commonOffset),
              commonString ++ edit.take (edit.length - commonOffset),
              commonString ++ equality2)
          else (equality1, edit, equality2)
        let eq1s := shifted.1
        let edits := shifted.2.1
        let eq2s := shifted.2.2
        let bestScore := diffCleanupSemanticScore eq1s edits +
          diffCleanupSemanticScore edits eq2s
        let best := losslessSteps (eq2s.length + 1) eq1s edits eq2s
          (eq1s, edits, eq2s) bestScore
        let b1 := best.1
        let bE := best.2.1
        let b2 := best.2.2
        if (dget ds (pointer - 1)).text ≠ b1 then
          let step1 :=
            if b1.length ≠ 0 then
              (ds.set (pointer - 1) ⟨(dget ds (pointer - 1)).op, b1⟩, pointer)
            else (splice ds (pointer - 1) 1 [], pointer - 1)
          let ds1 := step1.1
          let p1 := step1.2
          let ds2 := ds1.set p1 ⟨(dget ds1 p1).op, bE⟩
          let step2 :=
            if b2.length ≠ 0 then
              (ds2.set (p1 + 1) ⟨(dget ds2 (p1 + 1)).op, b2⟩, p1)
            else (ds2.take (p1 + 1) ++ ds2.drop (p1 + 2), p1 - 1)
          let ds3 := step2.1
          let p3 := step2.2
          losslessLoop f ds3 (p3 + 1)
        else losslessLoop f ds (pointer + 1)
      else losslessLoop f ds (pointer + 1)

/-- `DiffCleanupSemanticLossless` from `cleanup_semantic.go`. -/
def DiffCleanupSemanticLossless (diffs : List Diff) : List Diff :=
  losslessLoop (diffs.length + 2) diffs 1

/-- C10 (counterexample): on `[Equal 0xFF, Insert 0xFE, Equal "a"]` — both
lone bytes are invalid UTF-8 and decode to U+FFFD, so the rune-counted
common suffix of the equality and the edit is 1 while their bytes differ —
the left-shift moves the edit's byte into the following equality and the
derived texts change: `DiffText1` goes from `0xFF,"a"` to `0xFE,"a"`. -/
theorem DiffCleanupSemanticLossless_changes_texts :
    DiffCleanupSemanticLossless
        [⟨DiffEqual, [0xFF]⟩, ⟨DiffInsert, [0xFE]⟩, ⟨DiffEqual, [0x61]⟩] =
      [⟨DiffInsert, [0xFE]⟩, ⟨DiffEqual, [0xFE, 0x61]⟩] ∧
    DiffText1 [⟨DiffEqual, [0xFF]⟩, ⟨DiffInsert, [0xFE]⟩, ⟨DiffEqual, [0x61]⟩] =
      [0xFF, 0x61] ∧
    DiffText1 [⟨DiffInsert, [0xFE]⟩, ⟨DiffEqual, [0xFE, 0x61]⟩] = [0xFE, 0x61] ∧
    ([0xFF, 0x61] : GoStr) ≠ [0xFE, 0x61] := by
  exact ⟨by decide, by decide, by decide, by decide⟩

/-! ### UTF-8 canonicality (for the amended C10 statement) -/

/-- A byte string is replacement-free when no rune of its Go decoding is
U+FFFD: every decode step then consumed the canonical encoding of its
rune, so the byte positions of the decoded runes are unambiguous. -/
def FFFDfree (s : GoStr) : Bool :=
  (toRunes s).all (fun r => decide (r ≠ runeError))

theorem decodeRune_width_pos (b : Nat) (rest : GoStr) :
    1 ≤ (decodeRune (b :: rest)).2.1 := by
  simp only [decodeRune]
  repeat' split
  all_goals simp

theorem decodeRune_valid_or_error (s : GoStr) :
    (decodeRune s).1 = runeError ∨ (decodeRune s).2.2 = true := by
  cases s with
  | nil => left; rfl
  | cons b rest =>
    simp only [decodeRune]
    repeat' split
    all_goals simp

/-- A valid decode step consumed exactly the canonical encoding of the
decoded rune. -/
theorem decodeRune_canon (s : GoStr) (hv : (decodeRune s).2.2 = true) :
    encodeRune (decodeRune s).1 = s.take (decodeRune s).2.1 ∧
    (decodeRune s).2.1 ≤ s.length := by
  cases s with
  | nil => simp [decodeRune] at hv
  | cons b0 rest =>
    by_cases h1 : b0 < 0x80
    · simp only [decodeRune, if_pos h1]
      refine ⟨?_, by simp⟩
      rw [encodeRune, if_pos h1]
      rfl
    · by_cases h2 : b0 < 0xC2
      · simp [decodeRune, if_neg h1, if_pos h2] at hv
      · by_cases h3 : b0 ≤ 0xDF
        · cases rest with
          | nil => simp [decodeRune, if_neg h1, if_neg h2, if_pos h3] at hv
          | cons b1 rest1 =>
            simp only [decodeRune, if_neg h1, if_neg h2, if_pos h3] at hv ⊢
            by_cases h4 : inRange b1 0x80 0xBF = true
            · simp only [if_pos h4]
              simp only [inRange, Bool.and_eq_true, decide_eq_true_eq] at h4
              refine ⟨?_, by simp⟩
              rw [encodeRune, if_neg (by omega), if_pos (by omega)]
              simp only [List.take_succ_cons, List.take_zero,
                List.cons.injEq, and_true]
              exact ⟨by omega, by omega⟩
            · rw [if_neg h4] at hv
              exact absurd hv (by decide)
        · by_cases h5 : b0 ≤ 0xEF
          · match rest with
            | [] => simp [decodeRune, if_neg h1, if_neg h2, if_neg h3,
                if_pos h5] at hv
            | [b1] => simp [decodeRune, if_neg h1, if_neg h2, if_neg h3,
                if_pos h5] at hv
            | b1 :: b2 :: rest2 =>
              simp only [decodeRune, if_neg h1, if_neg h2, if_neg h3,
                if_pos h5] at hv ⊢
              by_cases h4 : (inRange b1 (if b0 = 0xE0 then 0xA0 else 0x80)
                  (if b0 = 0xED then 0x9F else 0xBF) &&
                  inRange b2 0x80 0xBF) = true
              · simp only [if_pos h4]
                simp only [inRange, Bool.and_eq_true, decide_eq_true_eq] at h4
                have hb1 : (if b0 = 0xE0 then (0xA0:Nat) else 0x80) ≤ b1 ∧
                    b1 ≤ (if b0 = 0xED then (0x9F:Nat) else 0xBF) :=
                  ⟨h4.1.1, h4.1.2⟩
                have hb2 : 0x80 ≤ b2 ∧ b2 ≤ 0xBF := ⟨h4.2.1, h4.2.2⟩
                refine ⟨?_, by simp⟩
                by_cases hE0 : b0 = 0xE0
                · rw [if_pos hE0] at hb1
                  have hED : ¬(b0 = 0xED) := by omega
                  rw [if_neg hED] at hb1
                  rw [encodeRune, if_neg (by omega), if_neg (by omega),
                    if_neg (by simp only [Bool.and_eq_true, decide_eq_true_eq]; omega),
                    if_pos (by omega)]
                  simp only [List.take_succ_cons, List.take_zero,
                    List.cons.injEq, and_true]
                  exact ⟨by omega, by omega, by omega⟩
                · rw [if_neg hE0] at hb1
                  by_cases hED : b0 = 0xED
                  · rw [if_pos hED] at hb1
                    rw [encodeRune, if_neg (by omega), if_neg (by omega),
                      if_neg (by simp only [Bool.and_eq_true, decide_eq_true_eq]; omega),
                      if_pos (by omega)]
                    simp only [List.take_succ_cons, List.take_zero,
                      List.cons.injEq, and_true]
                    exact ⟨by omega, by omega, by omega⟩
                  · rw [if_neg hED] at hb1
                    rw [encodeRune, if_neg (by omega), if_neg (by omega),
                      if_neg (by simp only [Bool.and_eq_true, decide_eq_true_eq]; omega),
                      if_pos (by omega)]
                    simp only [List.take_succ_cons, List.take_zero,
                      List.cons.injEq, and_true]
                    exact ⟨by omega, by omega, by omega⟩
              · rw [if_neg h4] at hv
                exact absurd hv (by decide)
          · by_cases h6 : b0 ≤ 0xF4
            · match rest with
              | [] => simp [decodeRune, if_neg h1, if_neg h2, if_neg h3,
                  if_neg h5, if_pos h6] at hv
              | [b1] => simp [decodeRune, if_neg h1, if_neg h2, if_neg h3,
                  if_neg h5, if_pos h6] at hv
              | [b1, b2] => simp [decodeRune, if_neg h1, if_neg h2, if_neg h3,
                  if_neg h5, if_pos h6] at hv
              | b1 :: b2 :: b3 :: rest3 =>
                simp only [decodeRune, if_neg h1, if_neg h2, if_neg h3,
                  if_neg h5, if_pos h6] at hv ⊢
                by_cases h4 : (inRange b1 (if b0 = 0xF0 then 0x90 else 0x80)
                    (if b0 = 0xF4 then 0x8F else 0xBF) &&
                    inRange b2 0x80 0xBF && inRange b3 0x80 0xBF) = true
                · simp only [if_pos h4]
                  simp only [inRange, Bool.and_eq_true, decide_eq_true_eq] at h4
                  have hb1 : (if b0 = 0xF0 then (0x90:Nat) else 0x80) ≤ b1 ∧
                      b1 ≤ (if b0 = 0xF4 then (0x8F:Nat) else 0xBF) :=
                    ⟨h4.1.1.1, h4.1.1.2⟩
                  have hb2 : 0x80 ≤ b2 ∧ b2 ≤ 0xBF := ⟨h4.1.2.1, h4.1.2.2⟩
                  have hb3 : 0x80 ≤ b3 ∧ b3 ≤ 0xBF := ⟨h4.2.1, h4.2.2⟩
                  refine ⟨?_, by simp⟩
                  by_cases hF0 : b0 = 0xF0
                  · rw [if_pos hF0] at hb1
                    have hF4 : ¬(b0 = 0xF4) := by omega
                    rw [if_neg hF4] at hb1
                    rw [encodeRune, if_neg (by omega), if_neg (by omega),
                      if_neg (by simp only [Bool.and_eq_true, decide_eq_true_eq]; omega),
                      if_neg (by omega), if_pos (by omega)]
                    simp only [List.take_succ_cons, List.take_zero,
                      List.cons.injEq, and_true]
                    exact ⟨by omega, by omega, by omega, by omega⟩
                  · rw [if_neg hF0] at hb1
                    by_cases hF4 : b0 = 0xF4
                    · rw [if_pos hF4] at hb1
                      rw [encodeRune, if_neg (by omega), if_neg (by omega),
                        if_neg (by simp only [Bool.and_eq_true, decide_eq_true_eq]; omega),
                        if_neg (by omega), if_pos (by omega)]
                      simp only [List.take_succ_cons, List.take_zero,
                        List.cons.injEq, and_true]
                      exact ⟨by omega, by omega, by omega, by omega⟩
                    · rw [if_neg hF4] at hb1
                      rw [encodeRune, if_neg (by omega), if_neg (by omega),
                        if_neg (by simp only [Bool.and_eq_true, decide_eq_true_eq]; omega),
                        if_neg (by omega), if_pos (by omega)]
                      simp only [List.take_succ_cons, List.take_zero,
                        List.cons.injEq, and_true]
                      exact ⟨by omega, by omega, by omega, by omega⟩
                · rw [if_neg h4] at hv
                  exact absurd hv (by decide)
            · simp [decodeRune, if_neg h1, if_neg h2, if_neg h3, if_neg h5,
                if_neg h6] at hv

/-- Unfolding of `toRunes` dropping the full consumed width. -/
theorem toRunes_cons_drop (b : Nat) (rest : GoStr) :
    toRunes (b :: rest) = (decodeRune (b :: rest)).1 ::
      toRunes ((b :: rest).drop (decodeRune (b :: rest)).2.1) := by
  rw [toRunes_cons]
  have hw := decodeRune_width_pos b rest
  have hdrop : (b :: rest).drop ((decodeRune (b :: rest)).2.1) =
      rest.drop ((decodeRune (b :: rest)).2.1 - 1) := by
    cases hw' : (decodeRune (b :: rest)).2.1 with
    | zero => rw [hw'] at hw; omega
    | succ n => simp [List.drop_succ_cons]
  rw [hdrop]

theorem fromRunes_append (a b : List Nat) :
    fromRunes (a ++ b) = fromRunes a ++ fromRunes b := by
  simp [fromRunes]

/-- A replacement-free byte string is the canonical encoding of its own
decoding. -/
theorem fromRunes_toRunes : ∀ (fuel : Nat) (s : GoStr), s.length ≤ fuel →
    FFFDfree s = true → fromRunes (toRunes s) = s := by
  intro fuel
  induction fuel with
  | zero =>
    intro s hlen _
    cases s with
    | nil => rfl
    | cons b rest => simp at hlen
  | succ fuel ih =>
    intro s hlen hf
    cases s with
    | nil => rfl
    | cons b rest =>
      simp only [FFFDfree] at hf
      rw [toRunes_cons_drop] at hf
      simp only [List.all_cons, Bool.and_eq_true, decide_eq_true_eq] at hf
      obtain ⟨hne, hall⟩ := hf
      have hv : (decodeRune (b :: rest)).2.2 = true :=
        (decodeRune_valid_or_error _).resolve_left hne
      obtain ⟨hcanon, hwle⟩ := decodeRune_canon _ hv
      have hw := decodeRune_width_pos b rest
      rw [toRunes_cons_drop]
      show encodeRune _ ++ fromRunes _ = _
      rw [hcanon, ih ((b :: rest).drop (decodeRune (b :: rest)).2.1)
        (by simp only [List.length_drop]; simp only [List.length_cons] at hlen ⊢; omega)
        (by simp only [FFFDfree]; simp only [List.all_eq_true]; intro r hr
            exact (List.all_eq_true.mp hall) r hr)]
      exact List.take_append_drop _ _

theorem toRunes_length_le : ∀ (fuel : Nat) (s : GoStr), s.length ≤ fuel →
    (toRunes s).length ≤ s.length := by
  intro fuel
  induction fuel with
  | zero =>
    intro s hlen
    cases s with
    | nil => simp
    | cons b rest => simp at hlen
  | succ fuel ih =>
    intro s hlen
    cases s with
    | nil => simp
    | cons b rest =>
      rw [toRunes_cons_drop]
      have hw := decodeRune_width_pos b rest
      have := ih ((b :: rest).drop (decodeRune (b :: rest)).2.1)
        (by simp only [List.length_drop]; simp only [List.length_cons] at hlen ⊢; omega)
      simp only [List.length_cons, List.length_drop] at this ⊢
      omega

/-- If the decoding of `s` ends in a replacement-free rune suffix, the bytes
of `s` end in the canonical encoding of that suffix. -/
theorem toRunes_suffix_bytes : ∀ (fuel : Nat) (s : GoStr) (pre sfx : List Nat),
    s.length ≤ fuel → toRunes s = pre ++ sfx →
    sfx.all (fun r => decide (r ≠ runeError)) = true →
    ∃ p, s = p ++ fromRunes sfx := by
  intro fuel
  induction fuel with
  | zero =>
    intro s pre sfx hlen heq hall
    cases s with
    | nil =>
      refine ⟨[], ?_⟩
      have : pre = [] ∧ sfx = [] := by
        have h0 : pre ++ sfx = [] := heq.symm
        exact List.append_eq_nil.mp h0
      rw [this.2]
      rfl
    | cons b rest => simp at hlen
  | succ fuel ih =>
    intro s pre sfx hlen heq hall
    cases s with
    | nil =>
      refine ⟨[], ?_⟩
      have h0 : pre ++ sfx = [] := heq.symm
      rw [(List.append_eq_nil.mp h0).2]
      rfl
    | cons b rest =>
      cases pre with
      | nil =>
        refine ⟨[], ?_⟩
        simp only [List.nil_append] at heq
        rw [← heq, fromRunes_toRunes (fuel + 1) _ hlen
          (by simp only [FFFDfree]; rw [heq]; exact hall)]
        rfl
      | cons r pre1 =>
        rw [toRunes_cons_drop] at heq
        have h2 : toRunes ((b :: rest).drop (decodeRune (b :: rest)).2.1) =
            pre1 ++ sfx := by
          have := List.tail_eq_of_cons_eq heq
          exact this
        have hw := decodeRune_width_pos b rest
        obtain ⟨p1, hp1⟩ := ih ((b :: rest).drop (decodeRune (b :: rest)).2.1)
          pre1 sfx
          (by simp only [List.length_drop]; simp only [List.length_cons] at hlen ⊢; omega)
          h2 hall
        refine ⟨(b :: rest).take (decodeRune (b :: rest)).2.1 ++ p1, ?_⟩
        conv_lhs => rw [← List.take_append_drop ((decodeRune (b :: rest)).2.1)
          (b :: rest)]
        rw [hp1, List.append_assoc]

theorem encodeRune_length_pos (r : Nat) : 1 ≤ (encodeRune r).length := by
  rw [encodeRune]
  repeat' split
  all_goals simp

theorem fromRunes_length_ge : ∀ (l : List Nat), l.length ≤ (fromRunes l).length := by
  intro l
  induction l with
  | nil => simp [fromRunes]
  | cons r l ih =>
    show (r :: l).length ≤ (encodeRune r ++ fromRunes l).length
    simp only [List.length_cons, List.length_append]
    have := encodeRune_length_pos r
    omega

theorem commonPrefixLength_le_left : ∀ (a b : List Nat),
    commonPrefixLength a b ≤ a.length := by
  intro a
  induction a with
  | nil => intro b; cases b <;> simp [commonPrefixLength]
  | cons x as ih =>
    intro b
    cases b with
    | nil => simp [commonPrefixLength]
    | cons y bs =>
      simp only [commonPrefixLength]
      split
      · simpa using ih bs
      · simp

theorem commonPrefixLength_le_right : ∀ (a b : List Nat),
    commonPrefixLength a b ≤ b.length := by
  intro a
  induction a with
  | nil => intro b; cases b <;> simp [commonPrefixLength]
  | cons x as ih =>
    intro b
    cases b with
    | nil => simp [commonPrefixLength]
    | cons y bs =>
      simp only [commonPrefixLength]
      split
      · simpa using ih bs
      · simp

theorem commonPrefixLength_take : ∀ (a b : List Nat),
    a.take (commonPrefixLength a b) = b.take (commonPrefixLength a b) := by
  intro a
  induction a with
  | nil => intro b; cases b <;> simp [commonPrefixLength]
  | cons x as ih =>
    intro b
    cases b with
    | nil => simp [commonPrefixLength]
    | cons y bs =>
      simp only [commonPrefixLength]
      split
      · rename_i hxy
        simp only [List.take_succ_cons, hxy, List.cons.injEq, true_and]
        exact ih bs
      · simp

theorem commonSuffixLength_drop (x y : List Nat) :
    x.drop (x.length - commonSuffixLength x y) =
      y.drop (y.length - commonSuffixLength x y) := by
  unfold commonSuffixLength
  have h := commonPrefixLength_take x.reverse y.reverse
  rw [List.take_reverse, List.take_reverse] at h
  exact List.reverse_inj.mp h

theorem commonSuffixLength_le_left (x y : List Nat) :
    commonSuffixLength x y ≤ x.length := by
  unfold commonSuffixLength
  simpa using commonPrefixLength_le_left x.reverse y.reverse

theorem commonSuffixLength_le_right (x y : List Nat) :
    commonSuffixLength x y ≤ y.length := by
  unfold commonSuffixLength
  simpa using commonPrefixLength_le_right x.reverse y.reverse

theorem drop_last_of_append (p s : GoStr) (k : Nat) (hk : k ≤ s.length) :
    (p ++ s).drop ((p ++ s).length - k) = s.drop (s.length - k) := by
  rw [List.length_append]
  have h : p.length + s.length - k = p.length + (s.length - k) := by omega
  rw [h, List.drop_append]

/-- The rune-counted common suffix of `x` and a replacement-free `y`
corresponds to a genuine common byte suffix of at least that many bytes: the
last `DiffCommonSuffixLen x y` BYTES of `x` and `y` coincide. -/
theorem commonSuffix_bytes (x y : GoStr) (hf : FFFDfree y = true) :
    x.drop (x.length - DiffCommonSuffixLen x y) =
      y.drop (y.length - DiffCommonSuffixLen x y) ∧
    DiffCommonSuffixLen x y ≤ x.length ∧ DiffCommonSuffixLen x y ≤ y.length := by
  have hkx : DiffCommonSuffixLen x y ≤ (toRunes x).length :=
    commonSuffixLength_le_left _ _
  have hky : DiffCommonSuffixLen x y ≤ (toRunes y).length :=
    commonSuffixLength_le_right _ _
  have hxb : (toRunes x).length ≤ x.length := toRunes_length_le x.length x le_rfl
  have hyb : (toRunes y).length ≤ y.length := toRunes_length_le y.length y le_rfl
  refine ⟨?_, by omega, by omega⟩
  set k := DiffCommonSuffixLen x y with hkdef
  have hsfx : (toRunes x).drop ((toRunes x).length - k) =
      (toRunes y).drop ((toRunes y).length - k) :=
    commonSuffixLength_drop (toRunes x) (toRunes y)
  set sfx := (toRunes y).drop ((toRunes y).length - k) with hsfxdef
  have hall : sfx.all (fun r => decide (r ≠ runeError)) = true := by
    rw [List.all_eq_true]
    intro r hr
    simp only [FFFDfree, List.all_eq_true] at hf
    exact hf r (List.mem_of_mem_drop hr)
  obtain ⟨px, hpx⟩ := toRunes_suffix_bytes x.length x
    ((toRunes x).take ((toRunes x).length - k)) sfx le_rfl
    (by rw [← hsfx]; exact (List.take_append_drop _ _).symm) hall
  obtain ⟨py, hpy⟩ := toRunes_suffix_bytes y.length y
    ((toRunes y).take ((toRunes y).length - k)) sfx le_rfl
    (List.take_append_drop _ _).symm hall
  have hsfxlen : sfx.length = k := by
    rw [hsfxdef, List.length_drop]
    omega
  have hkle : k ≤ (fromRunes sfx).length := by
    have := fromRunes_length_ge sfx
    omega
  rw [hpx, hpy, drop_last_of_append px _ k hkle, drop_last_of_append py _ k hkle]

/-- No two adjacent script entries are both `Equal` (executable form). -/
def noAdjEqB : List Diff → Bool
  | d1 :: d2 :: ds =>
    !(decide (d1.op = DiffEqual) && decide (d2.op = DiffEqual)) &&
      noAdjEqB (d2 :: ds)
  | _ => true

/-- No two adjacent script entries are both `Equal` (proof form). -/
def NoAdjEq : List Diff → Prop
  | d1 :: d2 :: ds =>
    ¬(d1.op = DiffEqual ∧ d2.op = DiffEqual) ∧ NoAdjEq (d2 :: ds)
  | _ => True

/-- Every edit sitting between two `Equal` entries (in the part of the
script still to be scanned) has a replacement-free payload. -/
def SafeT : List Diff → Prop
  | a :: b :: c :: rest =>
    (a.op = DiffEqual → c.op = DiffEqual → FFFDfree b.text = true) ∧
      SafeT (b :: c :: rest)
  | _ => True

theorem noAdjEqB_toProp : ∀ (l : List Diff), noAdjEqB l = true → NoAdjEq l := by
  intro l
  induction l with
  | nil => intro _; trivial
  | cons d1 rest ih =>
    cases rest with
    | nil => intro _; trivial
    | cons d2 rest2 =>
      intro h
      simp only [noAdjEqB, Bool.and_eq_true, Bool.not_eq_true',
        Bool.and_eq_false_iff, decide_eq_false_iff_not] at h
      refine ⟨?_, ih h.2⟩
      rintro ⟨ha, hb⟩
      rcases h.1 with h1 | h1
      · exact h1 ha
      · exact h1 hb

theorem SafeT_of_all : ∀ (l : List Diff),
    l.all (fun d => FFFDfree d.text) = true → SafeT l := by
  intro l
  induction l with
  | nil => intro _; trivial
  | cons a rest ih =>
    intro h
    simp only [List.all_cons, Bool.and_eq_true] at h
    match rest, ih with
    | [], _ => trivial
    | [b], _ => trivial
    | b :: c :: rest2, ih =>
      refine ⟨fun _ _ => ?_, ih h.2⟩
      simp only [List.all_cons, Bool.and_eq_true] at h
      exact h.2.1

theorem SafeT_tail : ∀ (x : Diff) (l : List Diff), SafeT (x :: l) → SafeT l := by
  intro x l h
  match l with
  | [] => trivial
  | [b] => trivial
  | b :: c :: rest => exact h.2

theorem SafeT_head (a b c : Diff) (rest : List Diff)
    (h : SafeT (a :: b :: c :: rest)) (ha : a.op = DiffEqual)
    (hc : c.op = DiffEqual) : FFFDfree b.text = true := h.1 ha hc

/-- Replacing the head of a list by one whose kind is `Equal` only if the
old head's was preserves `SafeT`. -/
theorem SafeT_replace_head (x y : Diff) (l : List Diff)
    (hop : y.op = DiffEqual → x.op = DiffEqual) (h : SafeT (x :: l)) :
    SafeT (y :: l) := by
  match l with
  | [] => trivial
  | [b] => trivial
  | b :: c :: rest => exact ⟨fun hy hc => h.1 (hop hy) hc, h.2⟩

theorem SafeT_cons_of_ne (x : Diff) (l : List Diff)
    (hx : x.op ≠ DiffEqual) (h : SafeT l) : SafeT (x :: l) := by
  match l with
  | [] => trivial
  | [b] => trivial
  | b :: c :: rest => exact ⟨fun hy _ => absurd hy hx, h⟩

theorem NoAdjEq_tail : ∀ (x : Diff) (l : List Diff), NoAdjEq (x :: l) →
    NoAdjEq l := by
  intro x l h
  match l with
  | [] => trivial
  | b :: rest => exact h.2

theorem NoAdjEq_append_right : ∀ (A l : List Diff), NoAdjEq (A ++ l) →
    NoAdjEq l := by
  intro A
  induction A with
  | nil => intro l h; exact h
  | cons a A ih => intro l h; exact ih l (NoAdjEq_tail a (A ++ l) h)

theorem NoAdjEq_cons_iff (x : Diff) (l : List Diff) :
    NoAdjEq (x :: l) ↔
      (∀ y, l.head? = some y → ¬(x.op = DiffEqual ∧ y.op = DiffEqual)) ∧
        NoAdjEq l := by
  match l with
  | [] => simp [NoAdjEq]
  | b :: rest =>
    constructor
    · intro h
      refine ⟨?_, h.2⟩
      intro y hy
      simp only [List.head?_cons, Option.some.injEq] at hy
      cases hy
      exact h.1
    · intro h
      exact ⟨h.1 b rfl, h.2⟩

/-- Rebuild `NoAdjEq` after replacing the segment after `A`, provided the
new segment is internally adjacent-`Equal`-free and its head is `Equal`
only if the old head was. -/
theorem NoAdjEq_append_congr : ∀ (A : List Diff) (l l' : List Diff),
    NoAdjEq l' →
    (∀ d', l'.head? = some d' → d'.op = DiffEqual →
      ∃ d, l.head? = some d ∧ d.op = DiffEqual) →
    NoAdjEq (A ++ l) → NoAdjEq (A ++ l') := by
  intro A
  induction A with
  | nil => intro l l' h _ _; exact h
  | cons a A ih =>
    intro l l' hl' hhead h
    rw [List.cons_append, NoAdjEq_cons_iff] at h ⊢
    refine ⟨?_, ih l l' hl' hhead h.2⟩
    intro y hy hcon
    cases A with
    | nil =>
      simp only [List.nil_append] at hy h
      obtain ⟨d, hd, hdeq⟩ := hhead y hy hcon.2
      exact h.1 d hd ⟨hcon.1, hdeq⟩
    | cons a2 A2 =>
      simp only [List.cons_append, List.head?_cons, Option.some.injEq] at hy h
      exact h.1 y (by simp [hy]) hcon

theorem dget_append_cons (A : List Diff) (d : Diff) (B : List Diff) :
    dget (A ++ d :: B) A.length = d := by
  induction A with
  | nil => rfl
  | cons a A ih =>
    simp only [List.cons_append, List.length_cons, dget, List.getD_cons_succ]
    simpa [dget] using ih

theorem set_append_cons (A : List Diff) (d d' : Diff) (B : List Diff) :
    (A ++ d :: B).set A.length d' = A ++ d' :: B := by
  induction A with
  | nil => rfl
  | cons a A ih => simp only [List.cons_append, List.length_cons,
      List.set_cons_succ, ih]

theorem DiffText1_append (a b : List Diff) :
    DiffText1 (a ++ b) = DiffText1 a ++ DiffText1 b := by
  induction a with
  | nil => rfl
  | cons d a ih =>
    simp only [List.cons_append, DiffText1, List.append_eq]
    rw [ih, List.append_assoc]

theorem DiffText2_append (a b : List Diff) :
    DiffText2 (a ++ b) = DiffText2 a ++ DiffText2 b := by
  induction a with
  | nil => rfl
  | cons d a ih =>
    simp only [List.cons_append, DiffText2, List.append_eq]
    rw [ih, List.append_assoc]

/-- The left-shift of `DiffCleanupSemanticLossless` preserves both maximal
concatenations, because the rune-counted common suffix of a replacement-free
edit is a genuine byte suffix. -/
theorem shift_concat_pos (e1 ed e2 : GoStr) (hf : FFFDfree ed = true) :
    e1.take (e1.length - DiffCommonSuffixLen e1 ed) ++
      (ed.drop (ed.length - DiffCommonSuffixLen e1 ed) ++ e2) = e1 ++ e2 ∧
    e1.take (e1.length - DiffCommonSuffixLen e1 ed) ++
      ((ed.drop (ed.length - DiffCommonSuffixLen e1 ed) ++
        ed.take (ed.length - DiffCommonSuffixLen e1 ed)) ++
       (ed.drop (ed.length - DiffCommonSuffixLen e1 ed) ++ e2)) =
      e1 ++ (ed ++ e2) := by
  obtain ⟨hlast, hle1, hle2⟩ := commonSuffix_bytes e1 ed hf
  set co := DiffCommonSuffixLen e1 ed with hco
  constructor
  · rw [← hlast, ← List.append_assoc, List.take_append_drop]
  · conv_rhs => rw [← List.take_append_drop (e1.length - co) e1,
      ← List.take_append_drop (ed.length - co) ed]
    rw [← hlast]
    simp only [List.append_assoc]

/-- The character-stepping loop preserves the two maximal concatenations of
its running state and of its best candidate. -/
theorem losslessSteps_concat : ∀ (f : Nat) (e1 ed e2 : GoStr)
    (best : GoStr × GoStr × GoStr) (score : Nat) (X Y : GoStr),
    best.1 ++ best.2.2 = X → best.1 ++ (best.2.1 ++ best.2.2) = Y →
    e1 ++ e2 = X → e1 ++ (ed ++ e2) = Y →
    (losslessSteps f e1 ed e2 best score).1 ++
      (losslessSteps f e1 ed e2 best score).2.2 = X ∧
    (losslessSteps f e1 ed e2 best score).1 ++
      ((losslessSteps f e1 ed e2 best score).2.1 ++
        (losslessSteps f e1 ed e2 best score).2.2) = Y := by
  intro f
  induction f with
  | zero =>
    intro e1 ed e2 best score X Y hb1 hb2 _ _
    exact ⟨hb1, hb2⟩
  | succ f ih =>
    intro e1 ed e2 best score X Y hb1 hb2 he1 he2
    simp only [losslessSteps]
    split
    · exact ⟨hb1, hb2⟩
    · split
      · exact ⟨hb1, hb2⟩
      · rename_i hcond2
        simp only [Bool.or_eq_true, decide_eq_true_eq, not_or] at hcond2
        have htake : ed.take ((decodeRune ed).2.1) =
            e2.take ((decodeRune ed).2.1) := by
          have := hcond2.2
          by_contra hne
          exact this hne
        have hX : (e1 ++ ed.take ((decodeRune ed).2.1)) ++
            e2.drop ((decodeRune ed).2.1) = X := by
          rw [List.append_assoc, htake, List.take_append_drop]
          exact he1
        have hY : (e1 ++ ed.take ((decodeRune ed).2.1)) ++
            ((ed.drop ((decodeRune ed).2.1) ++ e2.take ((decodeRune ed).2.1)) ++
              e2.drop ((decodeRune ed).2.1)) = Y := by
          rw [← he2]
          simp only [List.append_assoc]
          rw [List.take_append_drop]
          nth_rewrite 2 [← List.append_assoc]
          rw [List.take_append_drop]
        split
        · exact ih _ _ _ _ _ X Y hX hY hX hY
        · exact ih _ _ _ _ _ X Y hb1 hb2 hX hY

theorem dget_decomp0 (A : List Diff) (x : Diff) (R : List Diff) (n : Nat)
    (h : n = A.length) : dget (A ++ x :: R) n = x := by
  subst h; exact dget_append_cons A x R

theorem dget_decomp1 (A : List Diff) (x y : Diff) (R : List Diff) (n : Nat)
    (h : n = A.length + 1) : dget (A ++ x :: y :: R) n = y := by
  have hre : A ++ x :: y :: R = (A ++ [x]) ++ y :: R := by simp
  rw [hre]
  exact dget_decomp0 _ _ _ _ (by simp [h])

theorem dget_decomp2 (A : List Diff) (x y z : Diff) (R : List Diff) (n : Nat)
    (h : n = A.length + 2) : dget (A ++ x :: y :: z :: R) n = z := by
  have hre : A ++ x :: y :: z :: R = (A ++ [x, y]) ++ z :: R := by simp
  rw [hre]
  exact dget_decomp0 _ _ _ _ (by simp [h])

theorem set_decomp0 (A : List Diff) (x : Diff) (R : List Diff) (d : Diff)
    (n : Nat) (h : n = A.length) : (A ++ x :: R).set n d = A ++ d :: R := by
  subst h; exact set_append_cons A x d R

theorem set_decomp1 (A : List Diff) (x y : Diff) (R : List Diff) (d : Diff)
    (n : Nat) (h : n = A.length + 1) :
    (A ++ x :: y :: R).set n d = A ++ x :: d :: R := by
  have hre : A ++ x :: y :: R = (A ++ [x]) ++ y :: R := by simp
  have hre2 : A ++ x :: d :: R = (A ++ [x]) ++ d :: R := by simp
  rw [hre, hre2]
  exact set_decomp0 _ _ _ _ _ (by simp [h])

theorem set_decomp2 (A : List Diff) (x y z : Diff) (R : List Diff) (d : Diff)
    (n : Nat) (h : n = A.length + 2) :
    (A ++ x :: y :: z :: R).set n d = A ++ x :: y :: d :: R := by
  have hre : A ++ x :: y :: z :: R = (A ++ [x, y]) ++ z :: R := by simp
  have hre2 : A ++ x :: y :: d :: R = (A ++ [x, y]) ++ d :: R := by simp
  rw [hre, hre2]
  exact set_decomp0 _ _ _ _ _ (by simp [h])

theorem drop_decomp0 (A R : List Diff) (n : Nat) (h : n = A.length) :
    (A ++ R).drop n = R := by
  subst h
  have h0 := @List.drop_append Diff A R 0
  rw [Nat.add_zero] at h0
  rw [h0, List.drop_zero]

theorem drop_decomp1 (A : List Diff) (x : Diff) (R : List Diff) (n : Nat)
    (h : n = A.length + 1) : (A ++ x :: R).drop n = R := by
  have hre : A ++ x :: R = (A ++ [x]) ++ R := by simp
  rw [hre]
  exact drop_decomp0 _ _ _ (by simp [h])

theorem drop_decomp2 (A : List Diff) (x y : Diff) (R : List Diff) (n : Nat)
    (h : n = A.length + 2) : (A ++ x :: y :: R).drop n = R := by
  have hre : A ++ x :: y :: R = (A ++ [x, y]) ++ R := by simp
  rw [hre]
  exact drop_decomp0 _ _ _ (by simp [h])

theorem drop_decomp3 (A : List Diff) (x y z : Diff) (R : List Diff) (n : Nat)
    (h : n = A.length + 3) : (A ++ x :: y :: z :: R).drop n = R := by
  have hre : A ++ x :: y :: z :: R = (A ++ [x, y, z]) ++ R := by simp
  rw [hre]
  exact drop_decomp0 _ _ _ (by simp [h])

theorem take_decomp0 (A R : List Diff) (n : Nat) (h : n = A.length) :
    (A ++ R).take n = A := by
  subst h; exact List.take_left A R

theorem take_decomp2 (A : List Diff) (x y : Diff) (R : List Diff) (n : Nat)
    (h : n = A.length + 2) : (A ++ x :: y :: R).take n = A ++ [x, y] := by
  have hre : A ++ x :: y :: R = (A ++ [x, y]) ++ R := by simp
  rw [hre]
  exact take_decomp0 _ _ _ (by simp [h])

/-- Head-guarded constructor for `SafeT`. -/
theorem SafeT_cons_cons (x y : Diff) (l : List Diff)
    (hhead : ∀ c, l.head? = some c → x.op = DiffEqual → c.op = DiffEqual →
      FFFDfree y.text = true)
    (htail : SafeT (y :: l)) : SafeT (x :: y :: l) := by
  match l with
  | [] => trivial
  | c :: rest => exact ⟨fun hx hc => hhead c rfl hx hc, htail⟩

/-- Decompose a script at a scanned position. -/
theorem script_decomp (ds : List Diff) (q : Nat) (h : q + 2 < ds.length) :
    ds = ds.take q ++ dget ds q :: dget ds (q + 1) :: dget ds (q + 2) ::
      ds.drop (q + 3) ∧ (ds.take q).length = q := by
  constructor
  · conv_lhs => rw [← List.take_append_drop q ds]
    congr 1
    rw [List.drop_eq_getElem_cons (by omega : q < ds.length)]
    congr 1
    · simp [dget, List.getD_eq_getElem?_getD, List.getElem?_eq_getElem
        (by omega : q < ds.length)]
    rw [List.drop_eq_getElem_cons (by omega : q + 1 < ds.length)]
    congr 1
    · simp [dget, List.getD_eq_getElem?_getD, List.getElem?_eq_getElem
        (by omega : q + 1 < ds.length)]
    rw [List.drop_eq_getElem_cons (by omega : q + 2 < ds.length)]
    congr 1
    · simp [dget, List.getD_eq_getElem?_getD, List.getElem?_eq_getElem
        (by omega : q + 2 < ds.length)]
  · simp only [List.length_take]
    omega

theorem DiffText1_cons (d : Diff) (ds : List Diff) : DiffText1 (d :: ds) =
    (if d.op ≠ DiffInsert then d.text else []) ++ DiffText1 ds := rfl

theorem DiffText2_cons (d : Diff) (ds : List Diff) : DiffText2 (d :: ds) =
    (if d.op ≠ DiffDelete then d.text else []) ++ DiffText2 ds := rfl

set_option maxHeartbeats 2000000 in
/-- The pointer loop of `DiffCleanupSemanticLossless` preserves both derived
texts, when no two adjacent entries are `Equal` and every edit lying between
two equalities in the unscanned part has a replacement-free payload. -/
theorem losslessLoop_texts : ∀ (f : Nat) (ds : List Diff) (p : Nat),
    1 ≤ p → NoAdjEq ds → SafeT (ds.drop (p - 1)) →
    DiffText1 (losslessLoop f ds p) = DiffText1 ds ∧
    DiffText2 (losslessLoop f ds p) = DiffText2 ds := by
  intro f
  induction f with
  | zero => intro ds p _ _ _; exact ⟨rfl, rfl⟩
  | succ f ih =>
    intro ds p hp hadj hsafe
    obtain ⟨q, rfl⟩ : ∃ q, p = q + 1 := ⟨p - 1, by omega⟩
    simp only [Nat.add_sub_cancel] at hsafe
    rw [losslessLoop]
    have hn1 : q + 1 + 1 = q + 2 := rfl
    have hn2 : q + 1 + 2 = q + 3 := rfl
    simp only [Nat.add_sub_cancel, hn1, hn2]
    split
    · exact ⟨rfl, rfl⟩
    rename_i hptr
    have hlen : q + 2 < ds.length := by omega
    split
    case isFalse =>
      refine ih ds (q + 2) (by omega) hadj ?_
      have hq : q + 2 - 1 = q + 1 := rfl
      rw [hq]
      have hdq : ds.drop q = dget ds q :: ds.drop (q + 1) := by
        rw [List.drop_eq_getElem_cons (by omega : q < ds.length)]
        congr 1
        simp [dget, List.getD_eq_getElem?_getD,
          List.getElem?_eq_getElem (by omega : q < ds.length)]
      rw [hdq] at hsafe
      exact SafeT_tail _ _ hsafe
    case isTrue hops =>
      obtain ⟨hds, hA⟩ := script_decomp ds q hlen
      generalize hg0 : ds.take q = A at hds hA
      generalize hg1 : dget ds q = e1 at hds hops ⊢
      generalize hg2 : dget ds (q + 1) = e at hds ⊢
      generalize hg3 : dget ds (q + 2) = e2 at hds hops ⊢
      generalize hg4 : ds.drop (q + 3) = B at hds
      subst hds
      have he1op : e1.op = DiffEqual := hops.1
      have he2op : e2.op = DiffEqual := hops.2
      have hadjR : NoAdjEq (e1 :: e :: e2 :: B) := NoAdjEq_append_right A _ hadj
      have heop : e.op ≠ DiffEqual := fun hcon => hadjR.1 ⟨he1op, hcon⟩
      have hsafe2 : SafeT (e1 :: e :: e2 :: B) := by
        rw [drop_decomp0 A _ q hA.symm] at hsafe
        exact hsafe
      have hfe : FFFDfree e.text = true := hsafe2.1 he1op he2op
      have hsafeT1 : SafeT (e :: e2 :: B) := hsafe2.2
      have hsafeT2 : SafeT (e2 :: B) := SafeT_tail _ _ hsafeT1
      have hadjT2 : NoAdjEq (e2 :: B) :=
        NoAdjEq_tail _ _ (NoAdjEq_tail _ _ hadjR)
      obtain ⟨hpairB, hadjB⟩ := (NoAdjEq_cons_iff e2 B).mp hadjT2
      have hSH : ∃ s1 s2 s3 : GoStr,
          (if DiffCommonSuffixLen e1.text e.text > 0 then
              (e1.text.take (e1.text.length - DiffCommonSuffixLen e1.text e.text),
                e.text.drop (e.text.length - DiffCommonSuffixLen e1.text e.text) ++
                  e.text.take (e.text.length - DiffCommonSuffixLen e1.text e.text),
                e.text.drop (e.text.length - DiffCommonSuffixLen e1.text e.text) ++
                  e2.text)
            else (e1.text, e.text, e2.text)) = (s1, s2, s3) ∧
          s1 ++ s3 = e1.text ++ e2.text ∧
          s1 ++ (s2 ++ s3) = e1.text ++ (e.text ++ e2.text) := by
        by_cases hco : DiffCommonSuffixLen e1.text e.text > 0
        · rw [if_pos hco]
          obtain ⟨hc1, hc2⟩ := shift_concat_pos e1.text e.text e2.text hfe
          exact ⟨_, _, _, rfl, hc1, hc2⟩
        · rw [if_neg hco]
          exact ⟨_, _, _, rfl, rfl, rfl⟩
      obtain ⟨s1, s2, s3, hsh, hI1, hI2⟩ := hSH
      rw [hsh]
      simp only []
      rcases hBt : losslessSteps (s3.length + 1) s1 s2 s3 (s1, s2, s3)
        (diffCleanupSemanticScore s1 s2 + diffCleanupSemanticScore s2 s3) with
        ⟨b1, bE, b2⟩
      simp only []
      have hb := losslessSteps_concat (s3.length + 1) s1 s2 s3 (s1, s2, s3)
        (diffCleanupSemanticScore s1 s2 + diffCleanupSemanticScore s2 s3)
        (e1.text ++ e2.text) (e1.text ++ (e.text ++ e2.text)) hI1 hI2 hI1 hI2
      rw [hBt] at hb
      have hb1 : b1 ++ b2 = e1.text ++ e2.text := hb.1
      have hb2 : b1 ++ (bE ++ b2) = e1.text ++ (e.text ++ e2.text) := hb.2
      split
      case isFalse =>
        refine ih _ (q + 2) (by omega) hadj ?_
        have hq2 : q + 2 - 1 = q + 1 := rfl
        rw [hq2, drop_decomp1 A e1 _ _ (by omega)]
        exact hsafeT1
      case isTrue hch =>
        have hBhead : ∀ c, B.head? = some c → c.op ≠ DiffEqual :=
          fun c hc hcon => hpairB c hc ⟨he2op, hcon⟩
        have hSafeB : SafeT B := SafeT_tail _ _ hsafeT2
        by_cases hb1z : b1.length ≠ 0
        · rw [if_pos hb1z]
          simp only [Nat.add_sub_cancel, hn1]
          rw [set_decomp0 A e1 _ _ q hA.symm]
          by_cases hb2z : b2.length ≠ 0
          · rw [if_pos hb2z]
            simp only [Nat.add_sub_cancel, hn1]
            rw [dget_decomp1 A _ e _ _ (by omega)]
            rw [set_decomp1 A _ e _ _ _ (by omega)]
            rw [dget_decomp2 A _ _ e2 _ _ (by omega)]
            rw [set_decomp2 A _ _ e2 _ _ _ (by omega)]
            obtain ⟨ihT1, ihT2⟩ := ih
              (A ++ ⟨e1.op, b1⟩ :: ⟨e.op, bE⟩ :: ⟨e2.op, b2⟩ :: B) (q + 2)
              (by omega)
              (by
                refine NoAdjEq_append_congr A (e1 :: e :: e2 :: B) _ ?_
                  (fun d' _ _ => ⟨e1, rfl, he1op⟩) hadj
                refine ⟨fun hcon => heop hcon.2, fun hcon => heop hcon.1, ?_⟩
                exact (NoAdjEq_cons_iff _ B).mpr
                  ⟨fun y hy hcon => hpairB y hy ⟨hcon.1, hcon.2⟩, hadjB⟩)
              (by
                have hq2 : q + 2 - 1 = q + 1 := rfl
                rw [hq2, drop_decomp1 A _ _ _ (by omega)]
                exact SafeT_cons_of_ne _ _ heop
                  (SafeT_replace_head e2 _ B (fun h => h) hsafeT2))
            rw [ihT1, ihT2]
            constructor
            · simp only [DiffText1_append, DiffText1_cons]
              congr 1
              by_cases hop : e.op = DiffInsert
              · simp only [hop, ne_eq, not_true_eq_false, ite_false,
                  List.nil_append]
                simpa [List.append_assoc, he1op, he2op] using
                  congrArg (· ++ DiffText1 B) hb1
              · simp only [ne_eq, hop, not_false_eq_true, ite_true]
                simpa [List.append_assoc, he1op, he2op] using
                  congrArg (· ++ DiffText1 B) hb2
            · simp only [DiffText2_append, DiffText2_cons]
              congr 1
              by_cases hop : e.op = DiffDelete
              · simp only [hop, ne_eq, not_true_eq_false, ite_false,
                  List.nil_append]
                simpa [List.append_assoc, he1op, he2op] using
                  congrArg (· ++ DiffText2 B) hb1
              · simp only [ne_eq, hop, not_false_eq_true, ite_true]
                simpa [List.append_assoc, he1op, he2op] using
                  congrArg (· ++ DiffText2 B) hb2
          · rw [if_neg hb2z]
            simp only [Nat.add_sub_cancel, hn1]
            have hb2nil : b2 = [] := by
              rcases b2 with _ | ⟨c, cs⟩
              · rfl
              · exact absurd (by simp) hb2z
            rw [dget_decomp1 A _ e _ _ (by omega)]
            rw [set_decomp1 A _ e _ _ _ (by omega)]
            rw [take_decomp2 A _ _ _ _ (by omega)]
            rw [drop_decomp3 A _ _ e2 _ _ (by omega)]
            have hb1e : b1 = e1.text ++ e2.text := by
              have := hb1
              rw [hb2nil, List.append_nil] at this
              exact this
            have hb2e : b1 ++ bE = e1.text ++ (e.text ++ e2.text) := by
              have := hb2
              rw [hb2nil, List.append_nil] at this
              exact this
            obtain ⟨ihT1, ihT2⟩ := ih
              ((A ++ [⟨e1.op, b1⟩, ⟨e.op, bE⟩]) ++ B) (q + 1)
              (by omega)
              (by
                have hre : (A ++ [⟨e1.op, b1⟩, ⟨e.op, bE⟩]) ++ B =
                    A ++ ⟨e1.op, b1⟩ :: ⟨e.op, bE⟩ :: B := by simp
                rw [hre]
                refine NoAdjEq_append_congr A (e1 :: e :: e2 :: B) _ ?_
                  (fun d' _ _ => ⟨e1, rfl, he1op⟩) hadj
                refine ⟨fun hcon => heop hcon.2, ?_⟩
                exact (NoAdjEq_cons_iff _ B).mpr
                  ⟨fun y hy hcon => absurd hcon.1 heop, hadjB⟩)
              (by
                have hq1 : q + 1 - 1 = q := rfl
                have hre : (A ++ [⟨e1.op, b1⟩, ⟨e.op, bE⟩]) ++ B =
                    A ++ ⟨e1.op, b1⟩ :: ⟨e.op, bE⟩ :: B := by simp
                rw [hq1, hre, drop_decomp0 A _ _ hA.symm]
                refine SafeT_cons_cons _ _ B ?_ ?_
                · intro c hc _ hcop
                  exact absurd hcop (hBhead c hc)
                · exact SafeT_cons_of_ne _ _ heop hSafeB)
            rw [ihT1, ihT2]
            have hre : (A ++ [⟨e1.op, b1⟩, ⟨e.op, bE⟩]) ++ B =
                A ++ ⟨e1.op, b1⟩ :: ⟨e.op, bE⟩ :: B := by simp
            rw [hre]
            constructor
            · simp only [DiffText1_append, DiffText1_cons]
              congr 1
              by_cases hop : e.op = DiffInsert
              · simp only [hop, ne_eq, not_true_eq_false, ite_false,
                  List.nil_append]
                simpa [List.append_assoc, he1op, he2op] using
                  congrArg (· ++ DiffText1 B) hb1e
              · simp only [ne_eq, hop, not_false_eq_true, ite_true]
                simpa [List.append_assoc, he1op, he2op] using
                  congrArg (· ++ DiffText1 B) hb2e
            · simp only [DiffText2_append, DiffText2_cons]
              congr 1
              by_cases hop : e.op = DiffDelete
              · simp only [hop, ne_eq, not_true_eq_false, ite_false,
                  List.nil_append]
                simpa [List.append_assoc, he1op, he2op] using
                  congrArg (· ++ DiffText2 B) hb1e
              · simp only [ne_eq, hop, not_false_eq_true, ite_true]
                simpa [List.append_assoc, he1op, he2op] using
                  congrArg (· ++ DiffText2 B) hb2e
        · rw [if_neg hb1z]
          simp only [Nat.add_sub_cancel, hn1]
          have hb1nil : b1 = [] := by
            rcases b1 with _ | ⟨c, cs⟩
            · rfl
            · exact absurd (by simp) hb1z
          by_cases hb2z : b2.length ≠ 0
          · rw [if_pos hb2z]
            simp only [splice]
            rw [take_decomp0 A _ _ hA.symm]
            rw [drop_decomp1 A e1 _ _ (by omega)]
            simp only [List.append_nil, List.nil_append]
            rw [dget_decomp0 A e _ _ hA.symm]
            rw [set_decomp0 A e _ _ _ hA.symm]
            rw [dget_decomp1 A _ e2 _ _ (by omega)]
            rw [set_decomp1 A _ e2 _ _ _ (by omega)]
            have hb1e : b2 = e1.text ++ e2.text := by
              have := hb1
              rw [hb1nil, List.nil_append] at this
              exact this
            have hb2e : bE ++ b2 = e1.text ++ (e.text ++ e2.text) := by
              have := hb2
              rw [hb1nil, List.nil_append] at this
              exact this
            obtain ⟨ihT1, ihT2⟩ := ih
              (A ++ ⟨e.op, bE⟩ :: ⟨e2.op, b2⟩ :: B) (q + 1)
              (by omega)
              (by
                refine NoAdjEq_append_congr A (e1 :: e :: e2 :: B) _ ?_
                  (fun d' _ _ => ⟨e1, rfl, he1op⟩) hadj
                refine ⟨fun hcon => heop hcon.1, ?_⟩
                exact (NoAdjEq_cons_iff _ B).mpr
                  ⟨fun y hy hcon => hpairB y hy ⟨hcon.1, hcon.2⟩, hadjB⟩)
              (by
                have hq1 : q + 1 - 1 = q := rfl
                rw [hq1, drop_decomp0 A _ _ hA.symm]
                exact SafeT_cons_of_ne _ _ heop
                  (SafeT_replace_head e2 _ B (fun h => h) hsafeT2))
            rw [ihT1, ihT2]
            constructor
            · simp only [DiffText1_append, DiffText1_cons]
              congr 1
              by_cases hop : e.op = DiffInsert
              · simp only [hop, ne_eq, not_true_eq_false, ite_false,
                  List.nil_append]
                simpa [List.append_assoc, he1op, he2op] using
                  congrArg (· ++ DiffText1 B) hb1e
              · simp only [ne_eq, hop, not_false_eq_true, ite_true]
                simpa [List.append_assoc, he1op, he2op] using
                  congrArg (· ++ DiffText1 B) hb2e
            · simp only [DiffText2_append, DiffText2_cons]
              congr 1
              by_cases hop : e.op = DiffDelete
              · simp only [hop, ne_eq, not_true_eq_false, ite_false,
                  List.nil_append]
                simpa [List.append_assoc, he1op, he2op] using
                  congrArg (· ++ DiffText2 B) hb1e
              · simp only [ne_eq, hop, not_false_eq_true, ite_true]
                simpa [List.append_assoc, he1op, he2op] using
                  congrArg (· ++ DiffText2 B) hb2e
          · exfalso
            have hb2nil : b2 = [] := by
              rcases b2 with _ | ⟨c, cs⟩
              · rfl
              · exact absurd (by simp) hb2z
            have he1nil : e1.text = [] := by
              have := hb1
              rw [hb1nil, hb2nil, List.nil_append] at this
              exact (List.append_eq_nil.mp this.symm).1
            exact hch (he1nil.trans hb1nil.symm)

/-- C10 (amended): `DiffCleanupSemanticLossless` preserves `DiffText1` and
`DiffText2` for every script in which each payload's UTF-8 decoding is free
of U+FFFD (in particular each payload is valid UTF-8 not containing the
replacement character) and no two adjacent entries are both `Equal`.
Without the replacement-freeness hypothesis the rune-counted common suffix
used by the left-shift can alias distinct bytes and the texts change. -/
theorem DiffCleanupSemanticLossless_preserves_texts (ds : List Diff)
    (h1 : ds.all (fun d => FFFDfree d.text) = true)
    (h2 : noAdjEqB ds = true) :
    DiffText1 (DiffCleanupSemanticLossless ds) = DiffText1 ds ∧
    DiffText2 (DiffCleanupSemanticLossless ds) = DiffText2 ds := by
  refine losslessLoop_texts (ds.length + 2) ds 1 le_rfl (noAdjEqB_toProp ds h2) ?_
  have h0 : (1 : Nat) - 1 = 0 := rfl
  rw [h0, List.drop_zero]
  exact SafeT_of_all ds h1

/-- Witness for `DiffCleanupSemanticLossless_preserves_texts` on the
documentation example with multi-byte payloads:
`[Equal "aé", Insert "éb", Equal "c"]`. -/
theorem DiffCleanupSemanticLossless_preserves_texts_witness :
    (([⟨DiffEqual, [0x61, 0xC3, 0xA9]⟩, ⟨DiffInsert, [0xC3, 0xA9, 0x62]⟩,
        ⟨DiffEqual, [0x63]⟩] : List Diff).all
      (fun d => FFFDfree d.text) = true) ∧
    noAdjEqB [⟨DiffEqual, [0x61, 0xC3, 0xA9]⟩, ⟨DiffInsert, [0xC3, 0xA9, 0x62]⟩,
        ⟨DiffEqual, [0x63]⟩] = true ∧
    (DiffText1 (DiffCleanupSemanticLossless
        [⟨DiffEqual, [0x61, 0xC3, 0xA9]⟩, ⟨DiffInsert, [0xC3, 0xA9, 0x62]⟩,
         ⟨DiffEqual, [0x63]⟩]) =
      DiffText1 [⟨DiffEqual, [0x61, 0xC3, 0xA9]⟩, ⟨DiffInsert, [0xC3, 0xA9, 0x62]⟩,
         ⟨DiffEqual, [0x63]⟩] ∧
     DiffText2 (DiffCleanupSemanticLossless
        [⟨DiffEqual, [0x61, 0xC3, 0xA9]⟩, ⟨DiffInsert, [0xC3, 0xA9, 0x62]⟩,
         ⟨DiffEqual, [0x63]⟩]) =
      DiffText2 [⟨DiffEqual, [0x61, 0xC3, 0xA9]⟩, ⟨DiffInsert, [0xC3, 0xA9, 0x62]⟩,
         ⟨DiffEqual, [0x63]⟩]) :=
  ⟨by decide, by decide,
    DiffCleanupSemanticLossless_preserves_texts _ (by decide) (by decide)⟩

/-! ### `DiffCleanupSemantic` (`dmp.go`) -/

/-- Go `strings.Index` on byte strings. -/
def bytesIndexOf (haystack needle : GoStr) : Option Nat :=
  match haystack with
  | [] => if needle.isEmpty then some 0 else none
  | _ :: rest =>
    if needle.isPrefixOf haystack then some 0
    else (bytesIndexOf rest needle).map (· + 1)

/-- The growth loop of `DiffCommonOverlap` (`levenshtein.go`); `length`
strictly increases each non-returning iteration, so fuel `n + 2` always
suffices. -/
def overlapLoop : Nat → GoStr → GoStr → Nat → Nat → Nat → Nat
  | 0, _, _, _, best, _ => best
  | f + 1, s1, s2, n, best, length =>
    match bytesIndexOf s2 (s1.drop (n - length)) with
    | none => best
    | some found =>
      let length' := length + found
      if found = 0 ∨ s1.drop (n - length') = s2.take length' then
        overlapLoop f s1 s2 n length' (length' + 1)
      else overlapLoop f s1 s2 n best length'

/-- `DiffCommonOverlap` from `levenshtein.go`: the largest k such that the
last k bytes of `s1` equal the first k bytes of `s2` (pure byte logic, no
rune decoding). -/
def DiffCommonOverlap (s1 s2 : GoStr) : Nat :=
  let len1 := s1.length
  let len2 := s2.length
  if len1 = 0 ∨ len2 = 0 then 0
  else
    let s1' := if len1 > len2 then s1.drop (len1 - len2) else s1
    let s2' := if len1 < len2 then s2.take len1 else s2
    let n := min len1 len2
    if s1' = s2' then n else overlapLoop (n + 2) s1' s2' n 0 1

/-- One elimination performed by the `DiffCleanupSemantic` scan: the
equality's payload and the four run counters (inserted/deleted byte counts
before and after it) at the moment it fired. -/
structure SemEvent where
  lastEq : GoStr
  ins1 : Nat
  del1 : Nat
  ins2 : Nat
  del2 : Nat
  deriving DecidableEq, Repr

/-- The scan loop of `DiffCleanupSemantic` (`dmp.go`), instrumented to also
record each elimination as a `SemEvent`.  The stack of equality indices is
`Modelled from the spec:` the `Stack` type (push/peek/pop/clear over an
ordered sequence) is not among the provided sources, so it is a `List Nat`
with the head as top; `Peek` on an empty stack yields no value, and the Go
call site's `.(int)` type assertion on that nil value panics (`crash`). -/
def semScan : Nat → List Diff → List Nat → GoStr → Int →
    Nat → Nat → Nat → Nat → Bool → List SemEvent →
    RunResult (List Diff × Bool × List SemEvent)
  | 0, _, _, _, _, _, _, _, _, _, _ => .noFuel
  | fuel + 1, ds, eqs, lastEq, pointer, ins1, del1, ins2, del2, changes, events =>
    if pointer ≥ (ds.length : Int) then .ok (ds, changes, events)
    else
      let p := pointer.toNat
      if (dget ds p).op = DiffEqual then
        semScan fuel ds (p :: eqs) (dget ds p).text (pointer + 1)
          ins2 del2 0 0 changes events
      else
        let ins2' := if (dget ds p).op = DiffInsert then
          ins2 + (dget ds p).text.length else ins2
        let del2' := if (dget ds p).op = DiffDelete then
          del2 + (dget ds p).text.length else del2
        let diff1 := max ins1 del1
        let diff2 := max ins2' del2'
        if lastEq.length > 0 ∧ lastEq.length ≤ diff1 ∧ lastEq.length ≤ diff2 then
          let events' := events ++ [⟨lastEq, ins1, del1, ins2', del2'⟩]
          match eqs with
          | [] => .crash
          | insPoint :: eqsRest =>
            let ds1 := splice ds insPoint 0 [⟨DiffDelete, lastEq⟩]
            let ds2 := ds1.set (insPoint + 1)
              ⟨DiffInsert, (dget ds1 (insPoint + 1)).text⟩
            match eqsRest with
            | [] =>
              semScan fuel ds2 [] [] 0 0 0 0 0 true events'
            | _ :: eqsRest2 =>
              match eqsRest2 with
              | [] => .crash
              | top :: _ =>
                semScan fuel ds2 eqsRest2 [] ((top : Int) + 1)
                  0 0 0 0 true events'
        else
          semScan fuel ds eqs lastEq (pointer + 1) ins1 del1 ins2' del2'
            changes events

/-- The Delete/Insert overlap pass at the end of `DiffCleanupSemantic`.
The Go `float64(overlap) >= float64(len)/2` tests are exact integer
comparisons `2·overlap ≥ len` for these magnitudes. -/
def overlapPass : Nat → List Diff → Nat → List Diff
  | 0, ds, _ => ds
  | f + 1, ds, pointer =>
    if pointer ≥ ds.length then ds
    else
      if (dget ds (pointer - 1)).op = DiffDelete ∧
          (dget ds pointer).op = DiffInsert then
        let deletion := (dget ds (pointer - 1)).text
        let insertion := (dget ds pointer).text
        let ol1 := DiffCommonOverlap deletion insertion
        let ol2 := DiffCommonOverlap insertion deletion
        if ol1 ≥ ol2 then
          if 2 * ol1 ≥ deletion.length ∨ 2 * ol1 ≥ insertion.length then
            let ds1 := splice ds pointer 0 [⟨DiffEqual, insertion.take ol1⟩]
            let ds2 := ds1.set (pointer - 1)
              ⟨DiffDelete, deletion.take (deletion.length - ol1)⟩
            let ds3 := ds2.set (pointer + 1) ⟨DiffInsert, insertion.drop ol1⟩
            overlapPass f ds3 (pointer + 3)
          else overlapPass f ds (pointer + 2)
        else
          if 2 * ol2 ≥ deletion.length ∨ 2 * ol2 ≥ insertion.length then
            let ds1 := splice ds pointer 0 [⟨DiffEqual, insertion.drop ol2⟩]
            let ds2 := ds1.set (pointer - 1)
              ⟨DiffInsert, insertion.take (insertion.length - ol2)⟩
            let ds3 := ds2.set (pointer + 1) ⟨DiffDelete, deletion.drop ol2⟩
            overlapPass f ds3 (pointer + 3)
          else overlapPass f ds (pointer + 2)
      else overlapPass f ds (pointer + 1)

/-- `DiffCleanupSemantic` from `dmp.go`: the elimination scan, a merge
re-normalisation if anything changed, the lossless boundary pass, and the
overlap pass. -/
def DiffCleanupSemantic (fuel : Nat) (diffs : List Diff) :
    RunResult (List Diff) :=
  (semScan fuel diffs [] [] 0 0 0 0 0 false []).bind fun out =>
  (if out.2.1 then DiffCleanupMerge fuel out.1 else .ok out.1).bind fun ds =>
  let ds := DiffCleanupSemanticLossless ds
  .ok (overlapPass (2 * ds.length + 4) ds 1)

/-- The elimination condition the scan actually enforces: a nonempty
equality whose byte length is at most (not strictly below) the maximum of
insertions/deletions before it and the maximum after it. -/
def semEventLE (e : SemEvent) : Prop :=
  0 < e.lastEq.length ∧ e.lastEq.length ≤ max e.ins1 e.del1 ∧
    e.lastEq.length ≤ max e.ins2 e.del2

theorem semScan_events_le (fuel : Nat) :
    ∀ ds eqs lastEq pointer ins1 del1 ins2 del2 changes events out,
      semScan fuel ds eqs lastEq pointer ins1 del1 ins2 del2 changes events =
        .ok out →
      (∀ e ∈ events, semEventLE e) → ∀ e ∈ out.2.2, semEventLE e := by
  induction fuel with
  | zero => intro ds eqs lastEq pointer ins1 del1 ins2 del2 changes events out h; cases h
  | succ fuel ih =>
    intro ds eqs lastEq pointer ins1 del1 ins2 del2 changes events out h hev
    rw [semScan] at h
    by_cases hp : pointer ≥ (ds.length : Int)
    · rw [if_pos hp] at h
      cases h
      exact hev
    · rw [if_neg hp] at h
      by_cases heq : (dget ds pointer.toNat).op = DiffEqual
      · rw [if_pos heq] at h
        exact ih _ _ _ _ _ _ _ _ _ _ _ h hev
      · rw [if_neg heq] at h
        simp only at h
        by_cases hfire : lastEq.length > 0 ∧
            lastEq.length ≤ max ins1 del1 ∧
            lastEq.length ≤ max
              (if (dget ds pointer.toNat).op = DiffInsert then
                ins2 + (dget ds pointer.toNat).text.length else ins2)
              (if (dget ds pointer.toNat).op = DiffDelete then
                del2 + (dget ds pointer.toNat).text.length else del2)
        · rw [if_pos hfire] at h
          have hev' : ∀ e ∈ events ++ [(⟨lastEq, ins1, del1,
              (if (dget ds pointer.toNat).op = DiffInsert then
                ins2 + (dget ds pointer.toNat).text.length else ins2),
              (if (dget ds pointer.toNat).op = DiffDelete then
                del2 + (dget ds pointer.toNat).text.length else del2)⟩ :
              SemEvent)], semEventLE e := by
            intro e he
            rcases List.mem_append.mp he with h1 | h2
            · exact hev e h1
            · rcases List.mem_singleton.mp h2 with rfl
              exact ⟨hfire.1, hfire.2.1, hfire.2.2⟩
          rcases hqs : eqs with _ | ⟨insPoint, eqsRest⟩
          · rw [hqs] at h; cases h
          · rw [hqs] at h
            rcases hqr : eqsRest with _ | ⟨q2, eqsRest2⟩
            · rw [hqr] at h
              exact ih _ _ _ _ _ _ _ _ _ _ _ h hev'
            · rw [hqr] at h
              rcases hqr2 : eqsRest2 with _ | ⟨top, rest3⟩
              · rw [hqr2] at h; cases h
              · rw [hqr2] at h
                exact ih _ _ _ _ _ _ _ _ _ _ _ h hev'
        · rw [if_neg hfire] at h
          exact ih _ _ _ _ _ _ _ _ _ _ _ h hev

/-- C3 (amended): whenever the `DiffCleanupSemantic` scan completes, every
Equal operation it eliminated had a nonempty payload whose byte length was
less than **or equal to** both the maximum of insertions/deletions recorded
strictly before it and the maximum recorded strictly after it. -/
theorem DiffCleanupSemantic_elimination_condition (fuel : Nat)
    (ds : List Diff) (out : List Diff × Bool × List SemEvent)
    (h : semScan fuel ds [] [] 0 0 0 0 0 false [] = .ok out) :
    ∀ e ∈ out.2.2, semEventLE e := by
  exact semScan_events_le fuel ds [] [] 0 0 0 0 0 false [] out h
    (by intro e he; cases he)

/-- Witness for `DiffCleanupSemantic_elimination_condition` at the concrete
script `[Delete "a", Equal "b", Delete "c"]`, whose scan performs exactly
one elimination. -/
theorem DiffCleanupSemantic_elimination_condition_witness :
    semScan 100 [⟨DiffDelete, [0x61]⟩, ⟨DiffEqual, [0x62]⟩,
        ⟨DiffDelete, [0x63]⟩] [] [] 0 0 0 0 0 false [] =
      .ok ([⟨DiffDelete, [0x61]⟩, ⟨DiffDelete, [0x62]⟩, ⟨DiffInsert, [0x62]⟩,
        ⟨DiffDelete, [0x63]⟩], true, [⟨[0x62], 0, 1, 0, 1⟩]) ∧
    semEventLE ⟨[0x62], 0, 1, 0, 1⟩ := by
  refine ⟨by decide, ?_⟩
  have h := DiffCleanupSemantic_elimination_condition 100
    [⟨DiffDelete, [0x61]⟩, ⟨DiffEqual, [0x62]⟩, ⟨DiffDelete, [0x63]⟩]
    ([⟨DiffDelete, [0x61]⟩, ⟨DiffDelete, [0x62]⟩, ⟨DiffInsert, [0x62]⟩,
      ⟨DiffDelete, [0x63]⟩], true, [⟨[0x62], 0, 1, 0, 1⟩]) (by decide)
  exact h ⟨[0x62], 0, 1, 0, 1⟩ (by decide)

/-- C3 (counterexample): on `[Delete "a", Equal "b", Delete "c"]` the Equal
`"b"` has length exactly equal to the maximum deleted before it (1) and the
maximum deleted after it (1), yet `DiffCleanupSemantic` eliminates it
(yielding `[Delete "abc", Insert "b"]`, as the repository's own test
expects); the claim says an Equal whose length equals either surrounding
maximum is retained. -/
theorem DiffCleanupSemantic_eliminates_at_equality :
    DiffCleanupSemantic 100 [⟨DiffDelete, [0x61]⟩, ⟨DiffEqual, [0x62]⟩,
        ⟨DiffDelete, [0x63]⟩] =
      .ok [⟨DiffDelete, [0x61, 0x62, 0x63]⟩, ⟨DiffInsert, [0x62]⟩] ∧
    (∀ d ∈ [⟨DiffDelete, [0x61, 0x62, 0x63]⟩,
        (⟨DiffInsert, [0x62]⟩ : Diff)], d.op ≠ DiffEqual) ∧
    ([0x62] : GoStr).length = max 0 1 := by
  exact ⟨by decide, by decide, by decide⟩

/-! ### `diffBisect` (`dmp.go`) -/

/-- Configuration (`DMP`); only `DiffTimeout`'s sign is consulted by the
embedded code (the half-match skip) — the running clock itself is the
deadline oracle. -/
structure DMP where
  DiffTimeout : Int
  deriving DecidableEq, Repr

/-- State of the `diffBisect` d-loop: the two v-arrays and the k-range
shrink offsets. -/
structure BisectState where
  v1 : List Int
  v2 : List Int
  k1start : Nat
  k1end : Nat
  k2start : Nat
  k2end : Nat
  deriving DecidableEq, Repr

/-- Outcome of walking one front/reverse path step: an updated state, or an
overlap split point. -/
inductive WalkOut where
  | cont (st : BisectState)
  | split (x y : Nat)
  deriving DecidableEq, Repr

/-- The forward snake: extend while the texts agree. -/
def snakeFwd : Nat → List Nat → List Nat → Int → Int → Int × Int
  | 0, _, _, x1, y1 => (x1, y1)
  | f + 1, s1, s2, x1, y1 =>
    if x1 < (s1.length : Int) ∧ y1 < (s2.length : Int) ∧
        s1.getD x1.toNat 0 = s2.getD y1.toNat 0 then
      snakeFwd f s1 s2 (x1 + 1) (y1 + 1)
    else (x1, y1)

/-- The reverse snake: extend while the texts agree read from the ends. -/
def snakeRev : Nat → List Nat → List Nat → Int → Int → Int × Int
  | 0, _, _, x2, y2 => (x2, y2)
  | f + 1, s1, s2, x2, y2 =>
    if x2 < (s1.length : Int) ∧ y2 < (s2.length : Int) ∧
        s1.getD ((s1.length : Int) - x2 - 1).toNat 0 =
          s2.getD ((s2.length : Int) - y2 - 1).toNat 0 then
      snakeRev f s1 s2 (x2 + 1) (y2 + 1)
    else (x2, y2)

/-- Walk the front path one step (the `k1` loop of `diffBisect`).  All array
accesses are in bounds by the standard Myers invariants, matching the Go
code, which would panic otherwise.  Fuel `d + 2` always covers the at most
`d + 1` iterations. -/
def walkFront (s1 s2 : List Nat) (offset : Nat) (delta : Int) (front : Bool)
    (d : Nat) : Nat → Int → BisectState → WalkOut
  | 0, _, st => .cont st
  | f + 1, k1, st =>
    if k1 > (d : Int) - st.k1end then .cont st
    else
      let len1 := s1.length
      let len2 := s2.length
      let k1o := ((offset : Int) + k1).toNat
      let x1 : Int :=
        if k1 = -(d : Int) ∨ (k1 ≠ (d : Int) ∧
            st.v1.getD (k1o - 1) 0 < st.v1.getD (k1o + 1) 0) then
          st.v1.getD (k1o + 1) 0
        else st.v1.getD (k1o - 1) 0 + 1
      let y1 := x1 - k1
      let s := snakeFwd (len1 + len2 + 2) s1 s2 x1 y1
      let x1' := s.1
      let y1' := s.2
      let st1 := { st with v1 := st.v1.set k1o x1' }
      if x1' > (len1 : Int) then
        walkFront s1 s2 offset delta front d f (k1 + 2)
          { st1 with k1end := st1.k1end + 2 }
      else if y1' > (len2 : Int) then
        walkFront s1 s2 offset delta front d f (k1 + 2)
          { st1 with k1start := st1.k1start + 2 }
      else if front then
        let k2o : Int := (offset : Int) + delta - k1
        if 0 ≤ k2o ∧ k2o < (st1.v2.length : Int) ∧
            st1.v2.getD k2o.toNat 0 ≠ -1 then
          let x2 := (len1 : Int) - st1.v2.getD k2o.toNat 0
          if x1' ≥ x2 then .split x1'.toNat y1'.toNat
          else walkFront s1 s2 offset delta front d f (k1 + 2) st1
        else walkFront s1 s2 offset delta front d f (k1 + 2) st1
      else walkFront s1 s2 offset delta front d f (k1 + 2) st1

/-- Walk the reverse path one step (the `k2` loop of `diffBisect`). -/
def walkRev (s1 s2 : List Nat) (offset : Nat) (delta : Int) (front : Bool)
    (d : Nat) : Nat → Int → BisectState → WalkOut
  | 0, _, st => .cont st
  | f + 1, k2, st =>
    if k2 > (d : Int) - st.k2end then .cont st
    else
      let len1 := s1.length
      let len2 := s2.length
      let k2o := ((offset : Int) + k2).toNat
      let x2 : Int :=
        if k2 = -(d : Int) ∨ (k2 ≠ (d : Int) ∧
            st.v2.getD (k2o - 1) 0 < st.v2.getD (k2o + 1) 0) then
          st.v2.getD (k2o + 1) 0
        else st.v2.getD (k2o - 1) 0 + 1
      let y2 := x2 - k2
      let s := snakeRev (len1 + len2 + 2) s1 s2 x2 y2
      let x2' := s.1
      let y2' := s.2
      let st1 := { st with v2 := st.v2.set k2o x2' }
      if x2' > (len1 : Int) then
        walkRev s1 s2 offset delta front d f (k2 + 2)
          { st1 with k2end := st1.k2end + 2 }
      else if y2' > (len2 : Int) then
        walkRev s1 s2 offset delta front d f (k2 + 2)
          { st1 with k2start := st1.k2start + 2 }
      else if ¬ front then
        let k1o : Int := (offset : Int) + delta - k2
        if 0 ≤ k1o ∧ k1o < (st1.v1.length : Int) ∧
            st1.v1.getD k1o.toNat 0 ≠ -1 then
          let x1 := st1.v1.getD k1o.toNat 0
          let y1 := (offset : Int) + x1 - k1o
          let x2m := (len1 : Int) - x2'
          if x1 ≥ x2m then .split x1.toNat y1.toNat
          else walkRev s1 s2 offset delta front d f (k2 + 2) st1
        else walkRev s1 s2 offset delta front d f (k2 + 2) st1
      else walkRev s1 s2 offset delta front d f (k2 + 2) st1

/-! ### Helpers of `diffCompute` missing from the provided sources -/

/-- Modelled from the spec: `runesIndex(long, short)` — the speedup test "if
short is contained in long" (§4.E) is an index-of over codepoint slices. -/
def runesIndex (haystack needle : List Nat) : Option Nat :=
  bytesIndexOf haystack needle

/-- The five-tuple produced by a successful half-match, in `diffCompute`'s
reading order: `text1` prefix/suffix, `text2` prefix/suffix, common middle. -/
structure HalfMatch where
  t1a : List Nat
  t1b : List Nat
  t2a : List Nat
  t2b : List Nat
  mid : List Nat
  deriving DecidableEq, Repr

/-- Modelled from the spec: index-of starting at a given position, used by
the half-match occurrence scan. -/
def runesIndexFrom (haystack needle : List Nat) (start : Nat) : Option Nat :=
  (bytesIndexOf (haystack.drop start) needle).map (· + start)

/-- Modelled from the spec (§4.B): scan the occurrences of the seed
`long[i..i+|long|/4]` in `short`, extending each by the common prefix of the
texts after it and the common suffix of the texts before it; keep the
longest.  Fuel `|short| + 2` covers the strictly advancing scan. -/
def halfMatchIScan (long short : List Nat) (i : Nat) :
    Nat → Int → (List Nat × List Nat × List Nat × List Nat × List Nat) →
    List Nat × List Nat × List Nat × List Nat × List Nat
  | 0, _, best => best
  | f + 1, j, best =>
    let seed := (long.drop i).take (long.length / 4)
    match runesIndexFrom short seed (j + 1).toNat with
    | none => best
    | some j' =>
      let prefixLength := commonPrefixLength (long.drop i) (short.drop j')
      let suffixLength := commonSuffixLength (long.take i) (short.take j')
      let best' :=
        if best.2.2.2.2.length < suffixLength + prefixLength then
          ((long.take (i - suffixLength)), (long.drop (i + prefixLength)),
            (short.take (j' - suffixLength)), (short.drop (j' + prefixLength)),
            (short.drop (j' - suffixLength)).take suffixLength ++
              (short.drop j').take prefixLength)
        else best
      halfMatchIScan long short i f (j' : Int) best'

/-- Modelled from the spec (§4.B): one half-match attempt with the seed at
position `i` of `long`; succeeds when the best common middle is at least
half of `long`. -/
def halfMatchI (long short : List Nat) (i : Nat) : Option HalfMatch :=
  let b := halfMatchIScan long short i (short.length + 2) (-1) ([], [], [], [], [])
  if 2 * b.2.2.2.2.length ≥ long.length then
    some ⟨b.1, b.2.1, b.2.2.1, b.2.2.2.1, b.2.2.2.2⟩
  else none

/-- Modelled from the spec (§4.B): `diffHalfMatch` — skipped when the
timeout is disabled; requires `|long| ≥ 10` and `|short| ≥ |long|/4`; tries
the two seeds at ¼ and ½ into `long`, keeps the longer result, and swaps
the halves back when `text2` was the longer input. -/
def diffHalfMatch (dmp : DMP) (text1 text2 : List Nat) : Option HalfMatch :=
  if dmp.DiffTimeout ≤ 0 then none
  else
    let (long, short) :=
      if text1.length > text2.length then (text1, text2) else (text2, text1)
    if ¬ (10 ≤ long.length ∧ long.length / 4 ≤ short.length) then none
    else
      let hm1 := halfMatchI long short ((long.length + 3) / 4)
      let hm2 := halfMatchI long short ((long.length + 1) / 2)
      let hm :=
        match hm1, hm2 with
        | none, none => none
        | some h, none => some h
        | none, some h => some h
        | some h1, some h2 =>
          if h1.mid.length > h2.mid.length then some h1 else some h2
      match hm with
      | none => none
      | some h =>
        if text1.length > text2.length then some h
        else some ⟨h.t2a, h.t2b, h.t1a, h.t1b, h.mid⟩

/-- One line of a rune sequence: everything up to and including the first
newline. -/
def takeLine : List Nat → List Nat × List Nat
  | [] => ([], [])
  | c :: rest =>
    if c = 10 then ([10], rest)
    else
      let p := takeLine rest
      (c :: p.1, p.2)

/-- Split a rune sequence into lines, each including its trailing newline
(the last line may lack one).  Fuel `length + 1` always suffices. -/
def splitLines : Nat → List Nat → List (List Nat)
  | 0, _ => []
  | _ + 1, [] => []
  | f + 1, t =>
    let p := takeLine t
    p.1 :: splitLines f p.2

/-- Index of a line in the dictionary. -/
def lineIndexOf (line : List Nat) : List (List Nat) → Option Nat
  | [] => none
  | l :: ls => if l = line then some 0 else (lineIndexOf line ls).map (· + 1)

/-- Modelled from the spec (§4.C): encode a list of lines against a shared
dictionary (first-seen order, slot 0 reserved empty). -/
def encodeLines : List (List Nat) → List Nat → List (List Nat) →
    List Nat × List (List Nat)
  | [], acc, dict => (acc.reverse, dict)
  | line :: rest, acc, dict =>
    match lineIndexOf line dict with
    | some idx => encodeLines rest (idx :: acc) dict
    | none => encodeLines rest (dict.length :: acc) (dict ++ [line])

/-- Modelled from the spec (§4.C): `diffLinesToRunes` — compress both texts
to one codepoint per line using a shared dictionary. -/
def diffLinesToRunes (t1 t2 : List Nat) :
    List Nat × List Nat × List (List Nat) :=
  let p1 := encodeLines (splitLines (t1.length + 1) t1) [] [[]]
  let p2 := encodeLines (splitLines (t2.length + 1) t2) [] p1.2
  (p1.1, p2.1, p2.2)

/-- Modelled from the spec (§4.C): `DiffCharsToLines` — expand each payload
codepoint back to its line. -/
def DiffCharsToLines (diffs : List Diff) (lineArray : List (List Nat)) :
    List Diff :=
  diffs.map fun d =>
    ⟨d.op, fromRunes ((toRunes d.text).flatMap (fun r => lineArray.getD r []))⟩

/-! ### The mutually recursive diff pipeline (`dmp.go`)

`diffMainRunes`, `diffCompute`, `diffBisect` (d-loop), `diffBisectSplit` and
`diffLineMode`'s re-diff loop call each other; they are embedded as one
fuel-indexed recursion `diffGo` over a call tag, so that every definition is
structurally recursive and kernel-computable.  The deadline observations of
`time.Now().After(deadline)` at the top of each bisect `d`-iteration come
from the `oracle` argument. -/

/-- A pending call in the diff pipeline. -/
inductive DCall where
  | mainRunes (t1 t2 : List Nat) (checkLines : Bool)
  | bisectStart (s1 s2 : List Nat)
  | bisectD (s1 s2 : List Nat) (d : Nat) (st : BisectState)
  | lineRediff (ds : List Diff) (pointer cd ci : Nat) (td ti : GoStr)
  deriving Repr

/-- The diff pipeline.  `mainRunes` is `diffMainRunes` (with `diffCompute`
and `diffLineMode`'s head inlined at their unique call sites), `bisectStart`
is `diffBisect`'s entry (array allocation; the `v1[offset+1]` store panics
when `offset+1` is out of range), `bisectD` is the bisect d-loop, and
`lineRediff` is the replacement-block re-diff loop of `diffLineMode`. -/
def diffGo : Nat → DMP → (Nat → Bool) → DCall → RunResult (List Diff)
  | 0, _, _, _ => .noFuel
  | fuel + 1, dmp, oracle, .mainRunes t1 t2 checkLines =>
    if t1 = t2 then
      .ok (if t1.length > 0 then [⟨DiffEqual, fromRunes t1⟩] else [])
    else
      let n := commonPrefixLength t1 t2
      let commonprefix := t1.take n
      let t1p := t1.drop n
      let t2p := t2.drop n
      let m := commonSuffixLength t1p t2p
      let commonsuffix := t1p.drop (t1p.length - m)
      let text1 := t1p.take (t1p.length - m)
      let text2 := t2p.take (t2p.length - m)
      let compute : RunResult (List Diff) :=
        if text1.length = 0 then .ok [⟨DiffInsert, fromRunes text2⟩]
        else if text2.length = 0 then .ok [⟨DiffDelete, fromRunes text1⟩]
        else
          let longtext := if text1.length > text2.length then text1 else text2
          let shorttext := if text1.length > text2.length then text2 else text1
          match runesIndex longtext shorttext with
          | some i =>
            let op := if text1.length > text2.length then DiffDelete
              else DiffInsert
            .ok [⟨op, fromRunes (longtext.take i)⟩,
              ⟨DiffEqual, fromRunes shorttext⟩,
              ⟨op, fromRunes (longtext.drop (i + shorttext.length))⟩]
          | none =>
            if shorttext.length = 1 then
              .ok [⟨DiffDelete, fromRunes text1⟩, ⟨DiffInsert, fromRunes text2⟩]
            else
              match diffHalfMatch dmp text1 text2 with
              | some hm =>
                (diffGo fuel dmp oracle (.mainRunes hm.t1a hm.t2a checkLines)).bind
                  fun da =>
                (diffGo fuel dmp oracle (.mainRunes hm.t1b hm.t2b checkLines)).bind
                  fun db =>
                .ok (da ++ [⟨DiffEqual, fromRunes hm.mid⟩] ++ db)
              | none =>
                if checkLines ∧ text1.length > 100 ∧ text2.length > 100 then
                  let enc := diffLinesToRunes text1 text2
                  (diffGo fuel dmp oracle (.mainRunes enc.1 enc.2.1 false)).bind
                    fun diffs =>
                  let diffs := DiffCharsToLines diffs enc.2.2
                  (DiffCleanupSemantic fuel diffs).bind fun diffs =>
                  diffGo fuel dmp oracle
                    (.lineRediff (diffs ++ [⟨DiffEqual, []⟩]) 0 0 0 [] [])
                else diffGo fuel dmp oracle (.bisectStart text1 text2)
      compute.bind fun diffs =>
      let diffs := if commonprefix.length ≠ 0 then
        diffPrepend ⟨DiffEqual, fromRunes commonprefix⟩ diffs else diffs
      let diffs := if commonsuffix.length ≠ 0 then
        diffAppend diffs ⟨DiffEqual, fromRunes commonsuffix⟩ else diffs
      DiffCleanupMerge fuel diffs
  | fuel + 1, dmp, oracle, .bisectStart s1 s2 =>
    let len1 := s1.length
    let len2 := s2.length
    let dmax := (len1 + len2 + 1) / 2
    let offset := dmax
    let vlen := 2 * dmax
    if vlen ≤ offset + 1 then .crash
    else
      let v1 := (List.replicate vlen (-1 : Int)).set (offset + 1) 0
      let v2 := (List.replicate vlen (-1 : Int)).set (offset + 1) 0
      diffGo fuel dmp oracle (.bisectD s1 s2 0 ⟨v1, v2, 0, 0, 0, 0⟩)
  | fuel + 1, dmp, oracle, .bisectD s1 s2 d st =>
    let len1 := s1.length
    let len2 := s2.length
    let dmax := (len1 + len2 + 1) / 2
    let offset := dmax
    let delta : Int := (len1 : Int) - (len2 : Int)
    let front := delta % 2 ≠ 0
    if d ≥ dmax ∨ oracle d then
      .ok [⟨DiffDelete, fromRunes s1⟩, ⟨DiffInsert, fromRunes s2⟩]
    else
      match walkFront s1 s2 offset delta front d (d + 2)
          (-(d : Int) + st.k1start) st with
      | .split x y =>
        (diffGo fuel dmp oracle (.mainRunes (s1.take x) (s2.take y) false)).bind
          fun da =>
        (diffGo fuel dmp oracle (.mainRunes (s1.drop x) (s2.drop y) false)).bind
          fun db =>
        .ok (da ++ db)
      | .cont st1 =>
        match walkRev s1 s2 offset delta front d (d + 2)
            (-(d : Int) + st1.k2start) st1 with
        | .split x y =>
          (diffGo fuel dmp oracle (.mainRunes (s1.take x) (s2.take y) false)).bind
            fun da =>
          (diffGo fuel dmp oracle (.mainRunes (s1.drop x) (s2.drop y) false)).bind
            fun db =>
          .ok (da ++ db)
        | .cont st2 => diffGo fuel dmp oracle (.bisectD s1 s2 (d + 1) st2)
  | fuel + 1, dmp, oracle, .lineRediff ds pointer cd ci td ti =>
    if pointer ≥ ds.length then .ok (ds.take (ds.length - 1))
    else
      match (dget ds pointer).op with
      | DiffInsert =>
        diffGo fuel dmp oracle
          (.lineRediff ds (pointer + 1) cd (ci + 1) td (ti ++ (dget ds pointer).text))
      | DiffDelete =>
        diffGo fuel dmp oracle
          (.lineRediff ds (pointer + 1) (cd + 1) ci (td ++ (dget ds pointer).text) ti)
      | DiffEqual =>
        if cd ≥ 1 ∧ ci ≥ 1 then
          let p1 := pointer - cd - ci
          let ds1 := splice ds p1 (cd + ci) []
          (diffGo fuel dmp oracle
              (.mainRunes (toRunes td) (toRunes ti) false)).bind fun a =>
          let ds2 := ds1.take p1 ++ a ++ ds1.drop p1
          diffGo fuel dmp oracle
            (.lineRediff ds2 (p1 + a.length + 1) 0 0 [] [])
        else
          diffGo fuel dmp oracle (.lineRediff ds (pointer + 1) 0 0 [] [])

/-- `diffMainRunes` from `dmp.go` (fuel-indexed). -/
def diffMainRunes (fuel : Nat) (dmp : DMP) (oracle : Nat → Bool)
    (t1 t2 : List Nat) (checkLines : Bool) : RunResult (List Diff) :=
  diffGo fuel dmp oracle (.mainRunes t1 t2 checkLines)

/-- `DiffMain` from `dmp.go`: convert the texts to runes and run the
pipeline. -/
def DiffMain (fuel : Nat) (dmp : DMP) (oracle : Nat → Bool)
    (s1 s2 : GoStr) (checkLines : Bool) : RunResult (List Diff) :=
  diffGo fuel dmp oracle (.mainRunes (toRunes s1) (toRunes s2) checkLines)

/-- `diffBisect` from `dmp.go`, on rune slices. -/
def diffBisect (fuel : Nat) (dmp : DMP) (oracle : Nat → Bool)
    (s1 s2 : List Nat) : RunResult (List Diff) :=
  diffGo fuel dmp oracle (.bisectStart s1 s2)

/-- The public `DiffBisect` from `dmp.go`: convert the texts to runes and
run `diffBisect`. -/
def DiffBisect (fuel : Nat) (dmp : DMP) (oracle : Nat → Bool)
    (s1 s2 : GoStr) : RunResult (List Diff) :=
  diffBisect fuel dmp oracle (toRunes s1) (toRunes s2)

/-- C2 (code bug): the public `DiffBisect` panics on empty and one-codepoint
inputs: with `|s1|+|s2| ≤ 2` the store `v1[offset+1] = 0` writes at index
`dmax+1` of a slice of length `2·dmax ≤ dmax+1`, an index-out-of-range
runtime panic, for every deadline and any configuration — instead of
returning a diff script. -/
theorem DiffBisect_panics_on_tiny_inputs (dmp : DMP) (oracle : Nat → Bool)
    (fuel : Nat) :
    DiffBisect (fuel + 1) dmp oracle [] [] = .crash ∧
    DiffBisect (fuel + 1) dmp oracle [0x61] [] = .crash ∧
    DiffBisect (fuel + 1) dmp oracle [0x61] [0x62] = .crash := by
  refine ⟨rfl, rfl, rfl⟩

/-- C7 (counterexample): on the one-codepoint pair `("a","b")` with the
deadline already expired, `diffBisect` panics in the array initialisation
instead of returning `[Delete "a", Insert "b"]` as the claim states for
every pair. -/
theorem diffBisect_expired_panics_on_tiny_input :
    diffBisect 50 ⟨1⟩ (fun _ => true) [0x61] [0x62] = .crash ∧
    (RunResult.crash : RunResult (List Diff)) ≠
      .ok [⟨DiffDelete, [0x61]⟩, ⟨DiffInsert, [0x62]⟩] := by
  exact ⟨rfl, by decide⟩

/-- C7 (amended): whenever `|s1| + |s2| ≥ 3` (so that the array
initialisation is in bounds) and the deadline is observed as already expired
at the first iteration, `diffBisect` returns exactly the two-element script
`[Delete s1, Insert s2]`. -/
theorem diffBisect_expired_returns_delete_insert (dmp : DMP)
    (oracle : Nat → Bool) (fuel : Nat) (s1 s2 : List Nat)
    (hlen : 3 ≤ s1.length + s2.length) (hor : oracle 0 = true) :
    diffBisect (fuel + 2) dmp oracle s1 s2 =
      .ok [⟨DiffDelete, fromRunes s1⟩, ⟨DiffInsert, fromRunes s2⟩] := by
  have hdmax : 2 ≤ (s1.length + s2.length + 1) / 2 := by omega
  show diffGo (fuel + 2) dmp oracle (.bisectStart s1 s2) = _
  rw [diffGo]
  rw [if_neg (by omega)]
  rw [diffGo]
  rw [if_pos (by simp [hor])]

/-- First input for the C1 counterexample: the four lines
`"q"*27+"\n"`, `"s"*27+"\n"`, `"t"*27+"\n"`, `"f"*27+"1"` (112 bytes, all
ASCII). -/
def c1Text1 : GoStr :=
  (List.replicate 27 0x71 ++ [0x0A]) ++ (List.replicate 27 0x73 ++ [0x0A]) ++
  (List.replicate 27 0x74 ++ [0x0A]) ++ (List.replicate 27 0x66 ++ [0x31])

/-- Second input for the C1 counterexample: the five lines `"p"*25+"\n"`,
`"q"*27+"\n"`, `"r"*27+"\n"`, `"s"*27+"\n"`, `"f"*27+"2"` (138 bytes). -/
def c1Text2 : GoStr :=
  (List.replicate 25 0x70 ++ [0x0A]) ++ (List.replicate 27 0x71 ++ [0x0A]) ++
  (List.replicate 27 0x72 ++ [0x0A]) ++ (List.replicate 27 0x73 ++ [0x0A]) ++
  (List.replicate 27 0x66 ++ [0x32])

/-- C1 (code bug): `DiffMain` does not satisfy the roundtrip property for
all inputs because it can panic before producing any script: on the
112/138-byte pair `c1Text1`/`c1Text2` with `checkLines = true` and an
unexpired deadline, the line-mode path reaches `DiffCleanupSemantic` with
two stacked equalities, the backward-elimination pops the stack twice and
then `Peek`s the empty stack — a nil-interface type-assertion panic — so
`diff_text1(diff_main(a,b)) == a` fails (there is no output at all). -/
theorem DiffMain_panics_in_line_mode :
    DiffMain 10000 ⟨1⟩ (fun _ => false) c1Text1 c1Text2 true = .crash := by
  rfl

/-- Witness for `diffBisect_expired_returns_delete_insert` at
`s1 = "a"`, `s2 = "bc"` with an always-expired deadline. -/
theorem diffBisect_expired_returns_delete_insert_witness :
    3 ≤ ([0x61] : List Nat).length + ([0x62, 0x63] : List Nat).length ∧
    (fun _ : Nat => true) 0 = true ∧
    diffBisect 50 ⟨1⟩ (fun _ => true) [0x61] [0x62, 0x63] =
      .ok [⟨DiffDelete, fromRunes [0x61]⟩, ⟨DiffInsert, fromRunes [0x62, 0x63]⟩] := by
  refine ⟨by decide, rfl, ?_⟩
  exact diffBisect_expired_returns_delete_insert ⟨1⟩ (fun _ => true) 48
    [0x61] [0x62, 0x63] (by decide) rfl

end GoDiff
